import Mathlib

/-!
Verification of the Medicoreportz extraction pipeline.

Shallow embedding of the pure text-processing pipeline of
`src/Medicoreportz/Medicoreportz.py` (the primary implementation of the
repository): `clean_text`, `extract_patient_info`, `extract_vital_signs`,
`extract_labs`, `enrich_labs`, `add_highlight_level`, `convert_to_json`,
`format_labs_for_llm`.

Strings are modelled as `List Char` (one entry per Unicode code point, the
same data model Python strings use).  Python `float` values are modelled by
`PyNum`: exact rationals for finite values plus `inf`, `-inf` and `nan`
(the rounding of decimal literals to binary doubles is not modelled; all
numeric literals appearing in the program and in the reference tables are
exact).  Character classification (`str.isspace`, `\s`, `\w`, upper/lower
case) is modelled exactly for code points below 256, which covers every
character the pipeline itself can produce; code points above 255 are
treated as opaque non-space, non-word characters except for the line
separators U+2028/U+2029.
-/

namespace Medicoreportz

/-- True for ASCII code points, the characters kept by
`text.encode("ascii", "ignore")`. -/
def isAsciiC (c : Char) : Bool := c.toNat < 128

/-- Python `str.isspace` (and the regex class `\s`) for code points below
256: 0x09–0x0D, 0x1C–0x1F, space, NEL (0x85) and NBSP (0xA0). -/
def isPySpaceC (c : Char) : Bool :=
  (9 ≤ c.toNat && c.toNat ≤ 13) || (28 ≤ c.toNat && c.toNat ≤ 32) ||
  c.toNat = 133 || c.toNat = 160

/-- Line boundaries recognised by Python `str.splitlines`:
\n, \v, \f, \r, 0x1C–0x1E, NEL, and U+2028/U+2029 (\r\n is one boundary). -/
def isLineBoundC (c : Char) : Bool :=
  (10 ≤ c.toNat && c.toNat ≤ 13) || (28 ≤ c.toNat && c.toNat ≤ 30) ||
  c.toNat = 133 || c.toNat = 8232 || c.toNat = 8233

def isDigitC (c : Char) : Bool := '0' ≤ c && c ≤ '9'

def isUpperAl (c : Char) : Bool := 'A' ≤ c && c ≤ 'Z'

def isLowerAl (c : Char) : Bool := 'a' ≤ c && c ≤ 'z'

def isAlphaC (c : Char) : Bool := isUpperAl c || isLowerAl c

/-- ASCII lower-casing (Python `str.lower` restricted to ASCII letters). -/
def toLowerC (c : Char) : Char :=
  if isUpperAl c then Char.ofNat (c.toNat + 32) else c

/-- ASCII upper-casing (Python `str.upper` restricted to ASCII letters). -/
def toUpperC (c : Char) : Char :=
  if isLowerAl c then Char.ofNat (c.toNat - 32) else c

/-- The regex class `\w` on ASCII text: letters, digits and underscore. -/
def isWordC (c : Char) : Bool := isAlphaC c || isDigitC c || c = '_'

def pyLowerL (l : List Char) : List Char := l.map toLowerC

def pyUpperL (l : List Char) : List Char := l.map toUpperC

/-- Python `str.title` on ASCII letters: a letter is upper-cased when the
previous character is not a letter, lower-cased otherwise. -/
def pyTitleAux : Bool → List Char → List Char
  | _, [] => []
  | prevAlpha, c :: cs =>
    (if isAlphaC c then (if prevAlpha then toLowerC c else toUpperC c) else c)
      :: pyTitleAux (isAlphaC c) cs

def pyTitleL (l : List Char) : List Char := pyTitleAux false l

def pyTitle (s : String) : String := String.mk (pyTitleL s.toList)

/-- `startsWithL pat l` holds when `pat` is an initial segment of `l`. -/
def startsWithL : List Char → List Char → Bool
  | [], _ => true
  | _ :: _, [] => false
  | p :: ps, c :: cs => p = c && startsWithL ps cs

/-- Python's substring containment `needle in hay`. -/
def substrL (needle : List Char) : List Char → Bool
  | [] => startsWithL needle []
  | c :: cs => startsWithL needle (c :: cs) || substrL needle cs

/-- Case-insensitive initial-segment test; the pattern is given in lower
case, the text is lower-cased character by character (restricted to ASCII,
which is exact for every pattern used by the program). -/
def ciStartsWith : List Char → List Char → Bool
  | [], _ => true
  | _ :: _, [] => false
  | p :: ps, c :: cs => p = toLowerC c && ciStartsWith ps cs

/-- Python `str.strip()`: remove leading and trailing whitespace. -/
def pyStripL (l : List Char) : List Char :=
  ((l.dropWhile isPySpaceC).reverse.dropWhile isPySpaceC).reverse

/-- Worker for `pySplit`; the accumulator holds the current word reversed. -/
def pySplitAux : List Char → List Char → List (List Char)
  | [], acc => if acc = [] then [] else [acc.reverse]
  | c :: cs, acc =>
    if isPySpaceC c then
      if acc = [] then pySplitAux cs [] else acc.reverse :: pySplitAux cs []
    else pySplitAux cs (c :: acc)

/-- Python `str.split()` with no argument: split on runs of whitespace,
discarding empty words. -/
def pySplit (l : List Char) : List (List Char) := pySplitAux l []

/-- Worker for `pySplitlines`; the accumulator holds the current line
reversed. -/
def pySplitlinesAux : List Char → List Char → List (List Char)
  | [], acc => if acc = [] then [] else [acc.reverse]
  | '\r' :: '\n' :: cs, acc => acc.reverse :: pySplitlinesAux cs []
  | c :: cs, acc =>
    if isLineBoundC c then acc.reverse :: pySplitlinesAux cs []
    else pySplitlinesAux cs (c :: acc)

/-- Python `str.splitlines()`. -/
def pySplitlines (l : List Char) : List (List Char) := pySplitlinesAux l []

/-- A Python `float`: a finite value (exact rational), an infinity, or a
NaN. -/
inductive PyNum
  | fin (q : ℚ)
  | inf
  | ninf
  | nan
deriving DecidableEq, Repr

/-- The IEEE-754 ordering used by Python's `<` on floats: any comparison
with NaN is false. -/
def pyLt : PyNum → PyNum → Bool
  | .fin a, .fin b => a < b
  | .nan, _ => false
  | _, .nan => false
  | .ninf, .ninf => false
  | .ninf, _ => true
  | _, .ninf => false
  | .inf, _ => false
  | .fin _, .inf => true

def digitVal (c : Char) : ℕ := c.toNat - 48

/-- Consume the continuation of a digit group: further digits, with single
underscores allowed between digits (Python numeric-literal grammar).
Returns the accumulated value, the number of digits consumed in total and
the rest of the input. -/
def digitsTail : List Char → ℕ → ℕ → (ℕ × ℕ × List Char)
  | '_' :: d :: rest, acc, cnt =>
    if isDigitC d then digitsTail rest (10 * acc + digitVal d) (cnt + 1)
    else (acc, cnt, '_' :: d :: rest)
  | d :: rest, acc, cnt =>
    if isDigitC d then digitsTail rest (10 * acc + digitVal d) (cnt + 1)
    else (acc, cnt, d :: rest)
  | [], acc, cnt => (acc, cnt, [])

/-- Parse a digit group (at least one digit, single underscores allowed
between digits). -/
def digitsRun : List Char → Option (ℕ × ℕ × List Char)
  | d :: rest =>
    if isDigitC d then some (digitsTail rest (digitVal d) 1) else none
  | [] => none

/-- Scale a rational by a signed power of ten. -/
def scalePow10 (q : ℚ) (neg : Bool) (e : ℕ) : ℚ :=
  if neg then q / (10 : ℚ) ^ e else q * (10 : ℚ) ^ e

/-- Parse the optional exponent part `([eE][+-]?digits)?`; fails unless the
whole rest of the input is consumed. -/
def parseExpPart (q : ℚ) : List Char → Option ℚ
  | [] => some q
  | e :: rest =>
    if e = 'e' ∨ e = 'E' then
      match rest with
      | '+' :: r => (digitsRun r).bind fun (v, _, r₂) =>
          if r₂ = [] then some (scalePow10 q false v) else none
      | '-' :: r => (digitsRun r).bind fun (v, _, r₂) =>
          if r₂ = [] then some (scalePow10 q true v) else none
      | r => (digitsRun r).bind fun (v, _, r₂) =>
          if r₂ = [] then some (scalePow10 q false v) else none
    else none

/-- Parse the unsigned body of a Python float literal
(`digits [. digits?] | . digits`, then an optional exponent). -/
def parseBody (l : List Char) : Option ℚ :=
  match digitsRun l with
  | some (iv, _, rest) =>
    match rest with
    | '.' :: r =>
      match digitsRun r with
      | some (fv, fc, r₂) =>
        parseExpPart ((iv : ℚ) + (fv : ℚ) / (10 : ℚ) ^ fc) r₂
      | none => parseExpPart (iv : ℚ) r
    | r => parseExpPart (iv : ℚ) r
  | none =>
    match l with
    | '.' :: r =>
      (digitsRun r).bind fun (fv, fc, r₂) =>
        parseExpPart ((fv : ℚ) / (10 : ℚ) ^ fc) r₂
    | _ => none

/-- Case-insensitive equality with a lower-case pattern. -/
def ciEq (pat l : List Char) : Bool := pyLowerL l = pat

/-- The unsigned special float spellings accepted by Python. -/
def parseSpecial (l : List Char) : Option PyNum :=
  if ciEq ['i','n','f'] l ∨ ciEq ['i','n','f','i','n','i','t','y'] l then
    some .inf
  else if ciEq ['n','a','n'] l then some .nan
  else none

/-- Negate a `PyNum` (used for a leading minus sign). -/
def pyNeg : PyNum → PyNum
  | .fin q => .fin (-q)
  | .inf => .ninf
  | .ninf => .inf
  | .nan => .nan

/-- Python's `float(p)` on a whitespace-free token: optional sign, then a
numeric body or `inf`/`infinity`/`nan` (case-insensitive).  Returns `none`
where Python raises `ValueError`.  (Rounding to binary double precision and
non-ASCII digits are not modelled; values are exact rationals.) -/
def pyFloatL (l : List Char) : Option PyNum :=
  match l with
  | '+' :: r =>
    match parseSpecial r with
    | some v => some v
    | none => (parseBody r).map .fin
  | '-' :: r =>
    match parseSpecial r with
    | some v => some (pyNeg v)
    | none => (parseBody r).map fun q => .fin (-q)
  | r =>
    match parseSpecial r with
    | some v => some v
    | none => (parseBody r).map .fin

/-- A raw lab mention as produced by `extract_labs`: display name, numeric
value and unit hint. -/
structure Mention where
  test_name : String
  value : PyNum
  unit : String
deriving DecidableEq, Repr

/-- A resolved lab result as produced by `enrich_labs`. -/
structure Enriched where
  test_name : String
  value : PyNum
  unit : String
  normal_range : String
  status : String
  highlight : String
  confidence : ℚ
deriving DecidableEq, Repr

/-- The fixed vocabulary of recognised lab-test tokens in `extract_labs`,
in source order. -/
def CBC_TESTS : List String :=
  ["HEMOGLOBIN", "RBC", "PCV", "MCV", "MCH", "MCHC", "RDW", "WBC", "PLATELET"]

/-- The known-unit vocabulary of `extract_labs`, in the insertion order of
the source dictionary (dictionaries preserve insertion order). -/
def UNIT_KEYS : List String :=
  ["g/dL", "fL", "pg", "%", "cumm", "mill/cumm", "cells/mcL"]

/-- The test token recognised on a (stripped) line: the first entry of
`CBC_TESTS` contained in the upper-cased line, mirroring the inner `for
test in CBC_TESTS: if test in line_clean.upper()` loop with its `break`. -/
def lineTest (lc : List Char) : Option String :=
  CBC_TESTS.find? fun t => substrL t.toList (pyUpperL lc)

/-- The unit inferred for a line: the first entry of `UNIT_KEYS` whose
lower-casing is a substring of the lower-cased line, defaulting to
"Unknown".  In the source this is recomputed for each numeric token of the
line, but it depends only on the line, so it is computed once here. -/
def lineUnit (lc : List Char) : String :=
  match UNIT_KEYS.find? fun u => substrL (pyLowerL u.toList) (pyLowerL lc) with
  | some u => u
  | none => "Unknown"

/-- The mentions emitted for one line of input by `extract_labs`: if some
test token matches the stripped line, one mention per whitespace-separated
token that parses as a float (the loop body appends a mention for every
parseable token; the `break` only leaves the test loop). -/
def lineMentions (line : List Char) : List Mention :=
  let lc := pyStripL line
  match lineTest lc with
  | none => []
  | some test =>
    (pySplit lc).filterMap fun p =>
      (pyFloatL p).map fun v =>
        { test_name := pyTitle test, value := v, unit := lineUnit lc }

/-- `extract_labs`: scan the text line by line, appending the mentions of
each line to the accumulator list `labs`. -/
def extract_labs (text : List Char) : List Mention :=
  (pySplitlines text).foldl (fun acc line => acc ++ lineMentions line) []

/-- The `reference_ranges` table of `enrich_labs`: canonical key, closed
interval, the Python `str` renderings of the two bounds (ints render
without a decimal point, floats with one), and canonical unit. -/
structure RefEntry where
  low : ℚ
  high : ℚ
  lowS : String
  highS : String
  unit : String
deriving DecidableEq, Repr

def reference_ranges : List (String × RefEntry) :=
  [("glucose", ⟨70, 99, "70", "99", "mg/dL"⟩),
   ("wbc", ⟨4, 11, "4.0", "11.0", "x10^3/µL"⟩),
   ("hemoglobin", ⟨13, 17, "13.0", "17.0", "g/dL"⟩),
   ("platelet", ⟨150, 450, "150", "450", "x10^3/µL"⟩),
   ("cholesterol", ⟨0, 200, "0", "200", "mg/dL"⟩)]

/-- The alias table of `enrich_labs`, in source (insertion) order. -/
def aliases : List (String × List String) :=
  [("glucose", ["glucose", "blood glucose", "fasting glucose", "random glucose"]),
   ("wbc", ["wbc", "white blood cell", "white blood cells"]),
   ("hemoglobin", ["hemoglobin", "hb", "hgb"]),
   ("platelet", ["platelet", "platelets", "plt"]),
   ("cholesterol", ["cholesterol", "total cholesterol"])]

def substrS (needle hay : String) : Bool := substrL needle.toList hay.toList

def pyLowerS (s : String) : String := String.mk (pyLowerL s.toList)

/-- The alias-resolution loop of `enrich_labs`: the first canonical key one
of whose aliases is contained in the lower-cased raw name. -/
def resolveAlias (nameRaw : String) : Option String :=
  (aliases.find? fun p => p.2.any fun a => substrS a nameRaw).map (·.1)

/-- Dictionary lookup `reference_ranges[canonical]` guarded by
`canonical in reference_ranges`. -/
def lookupRange (key : String) : Option RefEntry :=
  (reference_ranges.find? fun p => p.1 = key).map (·.2)

/-- Floor of a rational, computed directly on the normalised fraction. -/
def floorQ (q : ℚ) : ℤ := q.num.fdiv q.den

/-- Python `round(x, 2)` on the exact rationals reaching it (0.95 and 0.4,
both already two-decimal values, so rounding is the identity on them);
modelled as round-half-even on hundredths. -/
def pyRound2 (q : ℚ) : ℚ :=
  let h : ℚ := q * 100
  let fl : ℤ := floorQ h
  let frac : ℚ := h - fl
  let r : ℤ :=
    if frac < 1/2 then fl
    else if frac > 1/2 then fl + 1
    else if fl % 2 = 0 then fl else fl + 1
  (r : ℚ) / 100

/-- The loop body of `enrich_labs` for a single mention. -/
def enrichLab (lab : Mention) : Enriched :=
  let nameRaw := pyLowerS lab.test_name
  let canonical := resolveAlias nameRaw
  match canonical with
  | some key =>
    match lookupRange key with
    | some ref =>
      let status :=
        if pyLt lab.value (.fin ref.low) then "Low"
        else if pyLt (.fin ref.high) lab.value then "High"
        else "Normal"
      let highlight :=
        if pyLt lab.value (.fin ref.low) then "warning"
        else if pyLt (.fin ref.high) lab.value then "warning"
        else "normal"
      { test_name := lab.test_name, value := lab.value, unit := lab.unit,
        normal_range := ref.lowS ++ "–" ++ ref.highS,
        status := status, highlight := highlight,
        confidence := pyRound2 (95/100) }
    | none =>
      { test_name := lab.test_name, value := lab.value, unit := lab.unit,
        normal_range := "Not available", status := "Unknown",
        highlight := "unknown", confidence := pyRound2 (2/5) }
  | none =>
    { test_name := lab.test_name, value := lab.value, unit := lab.unit,
      normal_range := "Not available", status := "Unknown",
      highlight := "unknown", confidence := pyRound2 (2/5) }

/-- `enrich_labs`: the enrichment loop appends one enriched entry per
input mention, in order. -/
def enrich_labs (labs : List Mention) : List Enriched := labs.map enrichLab

/-- The per-entry update of `add_highlight_level`. -/
def addHighlightOne (lab : Enriched) : Enriched :=
  { lab with highlight :=
      if lab.status = "Normal" then "normal"
      else if lab.status = "Low" then "warning"
      else if lab.status = "High" then "warning"
      else "unknown" }

/-- `add_highlight_level`: recompute `highlight` from `status` for every
entry (an in-place update of each dictionary, modelled as a map). -/
def add_highlight_level (labs : List Enriched) : List Enriched :=
  labs.map addHighlightOne

/-- Search for the smallest exponent (up to the fuel) making `q * 10^k` an
integer; used to render finite floats in decimal. -/
def decSearch (q : ℚ) : ℕ → ℕ → ℕ
  | 0, k => k
  | fuel + 1, k => if (q * (10 : ℚ) ^ k).den = 1 then k else decSearch q fuel (k + 1)

def decDigits (q : ℚ) : ℕ := decSearch q (2 * q.den.log2 + 4) 0

/-- Python `str` of a float, for the values this pipeline produces: minimal
decimal rendering with at least one fractional digit ("5.0", "11.2"),
"inf"/"-inf"/"nan" for the specials.  (Python's switch to scientific
notation for very large or very small magnitudes, and the sign of -0.0,
are not modelled.) -/
def pyNumRepr : PyNum → String
  | .fin q =>
    let neg := q < 0
    let a := |q|
    let k := max (decDigits a) 1
    let m := (a * (10 : ℚ) ^ k).num.toNat
    let ds := Nat.toDigits 10 m
    let ds' := List.replicate (k + 1 - ds.length) '0' ++ ds
    (if neg then "-" else "") ++
      String.mk (ds'.take (ds'.length - k)) ++ "." ++
      String.mk (ds'.drop (ds'.length - k))
  | .inf => "inf"
  | .ninf => "-inf"
  | .nan => "nan"

/-- `format_labs_for_llm`: the sentinel string on an empty sequence,
otherwise one fixed-format line per lab joined by newlines. -/
def format_labs_for_llm (labs : List Enriched) : String :=
  if labs = [] then "No lab values were detected."
  else
    String.intercalate "\n" (labs.map fun lab =>
      "- " ++ lab.test_name ++ ": " ++ pyNumRepr lab.value ++ " " ++ lab.unit ++
      " (Normal: " ++ lab.normal_range ++ ", Status: " ++ lab.status ++ ")")

/-- `PatientInfo`: the `info` dictionary of `extract_patient_info`. -/
structure PatientInfo where
  name : Option String
  age : Option ℕ
  gender : Option String
deriving DecidableEq, Repr

/-- The `vitals` dictionary of `extract_vital_signs` (absent keys are
`none`). -/
structure VitalSigns where
  blood_pressure : Option String
  heart_rate : Option String
deriving DecidableEq, Repr

/-- The tail of the gender regex `[:\-]?\s*(Male|Female)` after the label,
with the regex backtracking over the optional separator; returns the
captured text exactly as it appears (case preserved). -/
def genderTry (x : List Char) : Option (List Char) :=
  let y := x.dropWhile isPySpaceC
  if ciStartsWith ['m', 'a', 'l', 'e'] y then some (y.take 4)
  else if ciStartsWith ['f', 'e', 'm', 'a', 'l', 'e'] y then some (y.take 6)
  else none

def genderTail (r : List Char) : Option (List Char) :=
  match r with
  | c :: r' => if c = ':' ∨ c = '-' then genderTry r' <|> genderTry r else genderTry r
  | [] => genderTry []

/-- One match attempt of `(Gender|Sex)[:\-]?\s*(Male|Female)` (case
insensitive) at the start of `l`. -/
def genderAt (l : List Char) : Option (List Char) :=
  if ciStartsWith "gender".toList l then genderTail (l.drop 6)
  else if ciStartsWith "sex".toList l then genderTail (l.drop 3)
  else none

/-- `re.search` for the gender pattern: the match attempt at the leftmost
succeeding position. -/
def reSearchGender : List Char → Option (List Char)
  | [] => none
  | c :: t =>
    match genderAt (c :: t) with
    | some g => some g
    | none => reSearchGender t

def digitsToNat (l : List Char) : ℕ := l.foldl (fun a c => 10 * a + digitVal c) 0

/-- The tail of the age regex `[:\-]?\s*(\d+)` after the label. -/
def ageTry (x : List Char) : Option ℕ :=
  let y := x.dropWhile isPySpaceC
  let ds := y.takeWhile isDigitC
  if ds = [] then none else some (digitsToNat ds)

def ageTail (r : List Char) : Option ℕ :=
  match r with
  | c :: r' => if c = ':' ∨ c = '-' then ageTry r' <|> ageTry r else ageTry r
  | [] => ageTry []

def ageAt (l : List Char) : Option ℕ :=
  if ciStartsWith "age".toList l then ageTail (l.drop 3) else none

def reSearchAge : List Char → Option ℕ
  | [] => none
  | c :: t =>
    match ageAt (c :: t) with
    | some n => some n
    | none => reSearchAge t

/-- Characters of the name-capture class `[A-Za-z ]`. -/
def nameChar (c : Char) : Bool := isAlphaC c || c = ' '

/-- The lookahead `(?:\s+Age|\n|$)` closing the name capture.  (`\s+` is
greedy and `Age` starts with a non-space, so only the maximal whitespace
run can precede `Age`.) -/
def nameTailCond (y : List Char) : Bool :=
  match y with
  | [] => true
  | c :: _ =>
    c = '\n' || (isPySpaceC c && ciStartsWith "age".toList (y.dropWhile isPySpaceC))

/-- The non-greedy capture `([A-Za-z ]+?)` followed by `nameTailCond`:
shortest non-empty prefix of name characters whose continuation satisfies
the lookahead. -/
def nameCapAux (pre : List Char) : List Char → Option (List Char)
  | [] => none
  | c :: r =>
    if nameChar c then
      if nameTailCond r then some (pre ++ [c]) else nameCapAux (pre ++ [c]) r
    else none

def nameCapture (x : List Char) : Option (List Char) := nameCapAux [] x

/-- `\s*` before the name capture, greedy with backtracking: try the
longest whitespace run first, then shorter ones (the capture class
contains the space character, so shorter runs can still succeed). -/
def nameWs (r : List Char) : ℕ → Option (List Char)
  | 0 => nameCapture r
  | k + 1 => nameCapture (r.drop (k + 1)) <|> nameWs r k

def nameTail (r : List Char) : Option (List Char) :=
  let go := fun x => nameWs x (x.takeWhile isPySpaceC).length
  match r with
  | c :: r' => if c = ':' ∨ c = '-' then go r' <|> go r else go r
  | [] => go []

def nameAt (l : List Char) : Option (List Char) :=
  if ciStartsWith "patient name".toList l then nameTail (l.drop 12) else none

def reSearchName : List Char → Option (List Char)
  | [] => none
  | c :: t =>
    match nameAt (c :: t) with
    | some g => some g
    | none => reSearchName t

/-- `extract_patient_info`: the three independent regex searches; the name
capture is stripped, the age capture converted with `int`. -/
def extract_patient_info (text : List Char) : PatientInfo :=
  { name := (reSearchName text).map fun g => String.mk (pyStripL g),
    age := reSearchAge text,
    gender := (reSearchGender text).map String.mk }

/-- The blood-pressure capture `(\d+/\d+\s*mmHg)` (case insensitive),
returning the matched text verbatim. -/
def bpCapture (x : List Char) : Option (List Char) :=
  let d1 := x.takeWhile isDigitC
  if d1 = [] then none
  else
    match x.drop d1.length with
    | '/' :: r =>
      let d2 := r.takeWhile isDigitC
      if d2 = [] then none
      else
        let r₂ := r.drop d2.length
        let sp := r₂.takeWhile isPySpaceC
        let r₃ := r₂.drop sp.length
        if ciStartsWith "mmhg".toList r₃ then
          some (d1 ++ '/' :: d2 ++ sp ++ r₃.take 4)
        else none
    | _ => none

def bpTail (r : List Char) : Option (List Char) :=
  let go := fun x => bpCapture (x.dropWhile isPySpaceC)
  match r with
  | c :: r' => if c = ':' ∨ c = '-' then go r' <|> go r else go r
  | [] => go []

def bpAt (l : List Char) : Option (List Char) :=
  if ciStartsWith "blood pressure".toList l then bpTail (l.drop 14) else none

def reSearchBp : List Char → Option (List Char)
  | [] => none
  | c :: t =>
    match bpAt (c :: t) with
    | some g => some g
    | none => reSearchBp t

/-- The heart-rate capture `(\d+\s*bpm)` (case insensitive). -/
def hrCapture (x : List Char) : Option (List Char) :=
  let d1 := x.takeWhile isDigitC
  if d1 = [] then none
  else
    let r := x.drop d1.length
    let sp := r.takeWhile isPySpaceC
    let r₂ := r.drop sp.length
    if ciStartsWith "bpm".toList r₂ then some (d1 ++ sp ++ r₂.take 3) else none

def hrTail (r : List Char) : Option (List Char) :=
  let go := fun x => hrCapture (x.dropWhile isPySpaceC)
  match r with
  | c :: r' => if c = ':' ∨ c = '-' then go r' <|> go r else go r
  | [] => go []

def hrAt (l : List Char) : Option (List Char) :=
  if ciStartsWith "heart rate".toList l then hrTail (l.drop 10) else none

def reSearchHr : List Char → Option (List Char)
  | [] => none
  | c :: t =>
    match hrAt (c :: t) with
    | some g => some g
    | none => reSearchHr t

/-- `extract_vital_signs`. -/
def extract_vital_signs (text : List Char) : VitalSigns :=
  { blood_pressure := (reSearchBp text).map String.mk,
    heart_rate := (reSearchHr text).map String.mk }

/-- POSIX `os.path.basename`: the part after the last slash. -/
def pyBasename (s : String) : String :=
  String.mk ((s.toList.reverse.takeWhile (· ≠ '/')).reverse)

/-- The structured record assembled by `convert_to_json`. -/
structure PatientRecord where
  file_name : String
  language : String
  patient : PatientInfo
  vital_signs : VitalSigns
  labs : List Enriched
  raw_text : String
deriving DecidableEq, Repr

/-- `convert_to_json`.  Language identification is performed by the
external `langdetect` collaborator; it is passed in as the function
`detect` (whose value already folds in the `try/except` fallback to
"unknown"), since it does not influence any other field. -/
def convert_to_json (detect : List Char → String) (text : List Char)
    (filename : String) : PatientRecord :=
  { file_name := pyBasename filename,
    language := detect text,
    patient := extract_patient_info text,
    vital_signs := extract_vital_signs text,
    labs := add_highlight_level (enrich_labs (extract_labs text)),
    raw_text := String.mk text }


/-! ## The text normalizer `clean_text`

The nine stages of `clean_text` in source order: ASCII filtering, removal
of `http\S+` matches, removal of `\S+@\S+` matches, replacement of
characters outside `[\w\s.,:/()%\-]` by spaces, collapsing of `[ \t]+`
runs to one space, collapsing of `\n{2,}` runs to one newline, the two
unit-artifact replacements, and `strip()`. -/

/-- The regex class `[ \t]`. -/
def isBlankC (c : Char) : Bool := c = ' ' || c = '\t'

/-- Whether a match of `http\S+` starts at the head of `l`: the literal
"http" followed by at least one non-space character. -/
def isHttpAt (l : List Char) : Bool :=
  startsWithL ['h', 't', 't', 'p'] l &&
    match l.drop 4 with
    | [] => false
    | d :: _ => !isPySpaceC d

/-- Drop a `http\S+` match from the head: "http" and the following
maximal non-space run (the greedy `\S+`). -/
def dropHttp (l : List Char) : List Char :=
  (l.drop 4).dropWhile fun c => !isPySpaceC c

/-- `re.sub(r"http\S+", "", ·)`: scan left to right, removing each
leftmost match and continuing after it. -/
def subHttp : List Char → List Char
  | [] => []
  | c :: cs =>
    if isHttpAt (c :: cs) then subHttp (dropHttp (c :: cs))
    else c :: subHttp cs
termination_by l => l.length
decreasing_by
  · have h1 : (dropHttp (c :: cs)).length ≤ cs.length + 1 - 4 := by
      simp only [dropHttp]
      refine le_trans (List.dropWhile_sublist _).length_le ?_
      simp
    simp only [List.length_cons]
    omega
  · simp

/-- Whether a match of `\S+@\S+` starts at the head of `l`: the maximal
non-space run starting here must contain an `@` that is neither its first
nor its last character (so that both `\S+` groups are non-empty; the
greedy final `\S+` always extends to the end of the run). -/
def isEmailAt (l : List Char) : Bool :=
  (((l.takeWhile fun c => !isPySpaceC c).drop 1).dropLast).contains '@'

/-- Drop the maximal non-space run at the head (an email match always
covers exactly the run it starts in). -/
def dropRun (l : List Char) : List Char := l.dropWhile fun c => !isPySpaceC c

/-- `re.sub(r"\S+@\S+", "", ·)`. -/
def subEmail : List Char → List Char
  | [] => []
  | c :: cs =>
    if h : isEmailAt (c :: cs) = true then subEmail (dropRun (c :: cs))
    else c :: subEmail cs
termination_by l => l.length
decreasing_by
  · simp only [dropRun]
    cases hc : isPySpaceC c with
    | false =>
      rw [List.dropWhile_cons]
      simp only [hc, Bool.not_false, if_true]
      exact Nat.lt_succ_of_le (List.dropWhile_sublist _).length_le
    | true =>
      exfalso
      rw [isEmailAt, List.takeWhile_cons] at h
      simp [hc] at h
  · simp

/-- The characters kept by `re.sub(r"[^\w\s.,:/()%\-]", " ", ·)`. -/
def isCleanKeep (c : Char) : Bool :=
  isWordC c || isPySpaceC c || c = '.' || c = ',' || c = ':' || c = '/' ||
    c = '(' || c = ')' || c = '%' || c = '-'

/-- Replace every character outside the kept class by one space. -/
def pyMapBad (l : List Char) : List Char :=
  l.map fun c => if isCleanKeep c then c else ' '

/-- Collapse every maximal run of `p`-characters to the single character
`r`. -/
def collapseRun (p : Char → Bool) (r : Char) : List Char → List Char
  | [] => []
  | c :: cs =>
    if p c then r :: collapseRun p r (cs.dropWhile p)
    else c :: collapseRun p r cs
termination_by l => l.length
decreasing_by
  · exact Nat.lt_succ_of_le (List.dropWhile_sublist _).length_le
  · simp

/-- `re.sub(r"[ \t]+", " ", ·)`. -/
def collapseBlank (l : List Char) : List Char := collapseRun isBlankC ' ' l

/-- `re.sub(r"\n{2,}", "\n", ·)`: every newline run becomes one newline
(a run of length one is already one newline, so run collapapsing coincides
with replacing runs of length at least two). -/
def collapseNl (l : List Char) : List Char := collapseRun (fun c => c = '\n') '\n' l

/-- Python `str.replace(pat, rep)` for a non-empty pattern: scan left to
right, replacing each occurrence and continuing after it.  (An empty
pattern never occurs in the program; this model then returns the input.) -/
def replaceAllL (pat rep : List Char) : List Char → List Char
  | [] => []
  | c :: cs =>
    if pat ≠ [] ∧ startsWithL pat (c :: cs) = true then
      rep ++ replaceAllL pat rep (cs.drop (pat.length - 1))
    else c :: replaceAllL pat rep cs
termination_by l => l.length
decreasing_by
  · exact Nat.lt_succ_of_le (by simp)
  · simp

/-- The first unit artifact repaired by `clean_text`: "x10 3/L". -/
def tokenU : List Char := ['x', '1', '0', ' ', '3', '/', 'L']

/-- The second unit artifact: "x10 3 / L". -/
def tokenU2 : List Char := ['x', '1', '0', ' ', '3', ' ', '/', ' ', 'L']

/-- The canonical unit spelling both artifacts are replaced by:
"x10^3/µL". -/
def tokenR : List Char := ['x', '1', '0', '^', '3', '/', 'µ', 'L']

/-- `text.encode("ascii", "ignore").decode()`. -/
def pyAscii (l : List Char) : List Char := l.filter isAsciiC

/-- `clean_text`: the nine stages in source order. -/
def clean_text (text : List Char) : List Char :=
  pyStripL (replaceAllL tokenU2 tokenR (replaceAllL tokenU tokenR
    (collapseNl (collapseBlank (pyMapBad (subEmail (subHttp (pyAscii text))))))))

/-! ### Auxiliary notions for the idempotence proof -/

/-- Remove every µ (the only non-ASCII character a `clean_text` output can
contain); on such outputs this is what the ASCII filter does. -/
def eraseMu (l : List Char) : List Char := l.filter fun c => c ≠ 'µ'

/-- Map `^` to a space (what the character-class substitution does to the
only kept-class-violating character a µ-free `clean_text` output can
contain). -/
def mapCaret (l : List Char) : List Char :=
  l.map fun c => if c = '^' then ' ' else c

/-- One combined left-to-right pass replacing every occurrence of either
unit artifact by the canonical spelling.  Because neither artifact can
overlap an occurrence of the other (or of itself), this equals running the
two `str.replace` calls in sequence. -/
def subTokens : List Char → List Char
  | [] => []
  | c :: cs =>
    if startsWithL tokenU (c :: cs) then tokenR ++ subTokens (cs.drop 6)
    else if startsWithL tokenU2 (c :: cs) then tokenR ++ subTokens (cs.drop 8)
    else c :: subTokens cs
termination_by l => l.length
decreasing_by
  · exact Nat.lt_succ_of_le (by simp)
  · exact Nat.lt_succ_of_le (by simp)
  · simp

/-- The same pass on the decoded side: both artifacts normalise to the
first one.  This is the image of `subTokens` under µ-removal and
`^`-to-space mapping. -/
def normTokens : List Char → List Char
  | [] => []
  | c :: cs =>
    if startsWithL tokenU (c :: cs) then tokenU ++ normTokens (cs.drop 6)
    else if startsWithL tokenU2 (c :: cs) then tokenU ++ normTokens (cs.drop 8)
    else c :: normTokens cs
termination_by l => l.length
decreasing_by
  · exact Nat.lt_succ_of_le (by simp)
  · exact Nat.lt_succ_of_le (by simp)
  · simp

/-- No suffix of `l` starts an `http\S+` match. -/
def NoHttp : List Char → Prop
  | [] => True
  | c :: cs => isHttpAt (c :: cs) = false ∧ NoHttp cs

/-- No two adjacent characters both satisfying `p`. -/
def NoAdj (p : Char → Bool) : List Char → Prop
  | a :: b :: r => ¬(p a = true ∧ p b = true) ∧ NoAdj p (b :: r)
  | _ => True

/-- No two adjacent `[ \t]` characters. -/
def NoBB (l : List Char) : Prop := NoAdj isBlankC l

/-- No two adjacent newlines. -/
def NoNN (l : List Char) : Prop := NoAdj (fun c => c = '\n') l

/-- A character that can appear outside a unit token in a `clean_text`
output: kept class, ASCII, and not a tab. -/
def goodChar (c : Char) : Prop :=
  isCleanKeep c = true ∧ isAsciiC c = true ∧ c ≠ '\t'

/-- The invariant of the intermediate string `w` (after newline collapsing,
before the unit replacements). -/
def Wgood (w : List Char) : Prop :=
  (∀ c ∈ w, goodChar c) ∧ NoHttp w ∧ NoBB w ∧ NoNN w

/-- The head of the decoded tail, used to state adjacency conditions. -/
def dhead (r : List Char) : Option Char := (mapCaret (eraseMu r)).head?

/-- Side conditions of a plain character in a `clean_text` output, relative
to the rest of the output `r`: kept/ASCII/non-tab, it does not start an
`http` match in the µ-erased output, it does not form a double space or
double newline with the decoded tail, and no unit artifact starts here (in
the decoded output for the first artifact, in the output itself for the
second). -/
def NodeOk (c : Char) (r : List Char) : Prop :=
  goodChar c ∧
  isHttpAt (c :: eraseMu r) = false ∧
  (c = ' ' → dhead r ≠ some ' ') ∧
  (c = '\n' → dhead r ≠ some '\n') ∧
  startsWithL tokenU (c :: mapCaret (eraseMu r)) = false ∧
  startsWithL tokenU2 (c :: r) = false

/-- The shape of a `clean_text` output: a sequence of unit tokens and plain
characters, each plain character satisfying its side conditions. -/
inductive Shape : List Char → Prop
  | nil : Shape []
  | tok (r : List Char) : Shape r → Shape (tokenR ++ r)
  | chr (c : Char) (r : List Char) : NodeOk c r → Shape r → Shape (c :: r)


/-- The µ-erased image of `subTokens`: both artifacts are replaced by
"x10^3/L". -/
def hatTokens : List Char → List Char
  | [] => []
  | c :: cs =>
    if startsWithL tokenU (c :: cs) then
      ['x', '1', '0', '^', '3', '/', 'L'] ++ hatTokens (cs.drop 6)
    else if startsWithL tokenU2 (c :: cs) then
      ['x', '1', '0', '^', '3', '/', 'L'] ++ hatTokens (cs.drop 8)
    else c :: hatTokens cs
termination_by l => l.length
decreasing_by
  · exact Nat.lt_succ_of_le (by simp)
  · exact Nat.lt_succ_of_le (by simp)
  · simp

/-- Alignment of an output string into a source string: every output
character is either a copy of the corresponding source character (with the
alignment continuing in lock-step) or a whitespace character (after which
the alignment may resume at any suffix of the source).  A string aligned
into a source with no `http\S+` match has no such match either, because a
match consists of five consecutive non-space characters. -/
inductive Al : List Char → List Char → Prop
  | nil (z : List Char) : Al [] z
  | copy (c : Char) (y z : List Char) : Al y z → Al (c :: y) (c :: z)
  | brk (s : Char) (y z z' : List Char) :
      isPySpaceC s = true → z' <:+ z → Al y z' → Al (s :: y) z

/-! ## Helper lemmas -/

theorem foldl_append_eq (f : List Char → List Mention) (l : List (List Char)) :
    ∀ acc : List Mention, l.foldl (fun a x => a ++ f x) acc = acc ++ l.flatMap f := by
  induction l with
  | nil => intro acc; simp
  | cons x xs ih => intro acc; simp [ih, List.append_assoc]

theorem extract_labs_eq (text : List Char) :
    extract_labs text = (pySplitlines text).flatMap lineMentions := by
  simpa using foldl_append_eq lineMentions (pySplitlines text) []

theorem pyRound2_two_fifths : pyRound2 (2/5) = 2/5 := by with_unfolding_all rfl

theorem pyRound2_ninety_five : pyRound2 (95/100) = 19/20 := by with_unfolding_all rfl

/-- The four `(status, highlight)` pairs `enrich_labs` can produce. -/
theorem enrichLab_status_highlight (lab : Mention) :
    ((enrichLab lab).status = "Low" ∧ (enrichLab lab).highlight = "warning") ∨
    ((enrichLab lab).status = "High" ∧ (enrichLab lab).highlight = "warning") ∨
    ((enrichLab lab).status = "Normal" ∧ (enrichLab lab).highlight = "normal") ∨
    ((enrichLab lab).status = "Unknown" ∧ (enrichLab lab).highlight = "unknown") := by
  unfold enrichLab
  dsimp only
  split
  · split
    · dsimp only
      split_ifs with h1 h2 <;> simp
    · simp
  · simp

theorem addHighlightOne_status (e : Enriched) : (addHighlightOne e).status = e.status := rfl

theorem addHighlightOne_enrichLab (lab : Mention) :
    addHighlightOne (enrichLab lab) = enrichLab lab := by
  rcases enrichLab_status_highlight lab with ⟨h1, h2⟩ | ⟨h1, h2⟩ | ⟨h1, h2⟩ | ⟨h1, h2⟩ <;>
    · rcases e : enrichLab lab with ⟨tn, v, u, nr, st, hl, cf⟩
      rw [e] at h1 h2
      simp_all [addHighlightOne]

theorem resolveAlias_none_iff (n : String) :
    resolveAlias n = none ↔
      (aliases.any fun p => p.2.any fun a => substrS a n) = false := by
  simp [resolveAlias, List.find?_eq_none, List.any_eq_false]

theorem lookupRange_mem (key : String) (ref : RefEntry) (h : lookupRange key = some ref) :
    ref ∈ reference_ranges.map (·.2) := by
  rcases Option.map_eq_some'.mp h with ⟨p, hp, hp2⟩
  exact hp2 ▸ List.mem_map_of_mem _ (List.mem_of_find?_eq_some hp)

theorem lookupRange_low_le_high (key : String) (ref : RefEntry)
    (h : lookupRange key = some ref) : ref.low ≤ ref.high := by
  have hm := lookupRange_mem key ref h
  simp [reference_ranges] at hm
  rcases hm with h' | h' | h' | h' | h' <;> rw [h'] <;> norm_num

theorem aliasKey_lookup (p : String × List String) (hp : p ∈ aliases) :
    (lookupRange p.1).isSome = true := by
  simp [aliases] at hp
  rcases hp with h' | h' | h' | h' | h' <;> rw [h'] <;> rfl

theorem resolveAlias_some_lookup (n key : String) (h : resolveAlias n = some key) :
    (lookupRange key).isSome = true := by
  rcases Option.map_eq_some'.mp h with ⟨p, hp, hp1⟩
  exact hp1 ▸ aliasKey_lookup p (List.mem_of_find?_eq_some hp)

theorem resolveAlias_some_any (n key : String) (h : resolveAlias n = some key) :
    (aliases.any fun p => p.2.any fun a => substrS a n) = true := by
  by_contra hc
  have hf : (aliases.any fun p => p.2.any fun a => substrS a n) = false := by
    simpa using hc
  rw [(resolveAlias_none_iff n).mpr hf] at h
  simp at h

theorem convert_labs_eq (detect : List Char → String) (text : List Char) (fn : String) :
    (convert_to_json detect text fn).labs =
      (extract_labs text).map fun m => addHighlightOne (enrichLab m) := by
  simp [convert_to_json, add_highlight_level, enrich_labs, List.map_map]

/-! ## Claim theorems -/

/-- C10: the two highlight computations agree: applying `add_highlight_level`
to the output of `enrich_labs` changes nothing. -/
theorem claim10 (labs : List Mention) :
    add_highlight_level (enrich_labs labs) = enrich_labs labs := by
  simp only [add_highlight_level, enrich_labs, List.map_map]
  exact List.map_congr_left fun lab _ => addHighlightOne_enrichLab lab

/-- C2: a lab mention whose lower-cased label contains no alias of any
canonical key is still enriched (the output has an entry at the same
position), with status "Unknown", normal range "Not available" and
confidence at most 0.4. -/
theorem claim2 (labs : List Mention) (i : ℕ) (h : i < labs.length)
    (hna : ∀ p ∈ aliases, ∀ a ∈ p.2,
      substrS a (pyLowerS (labs.get ⟨i, h⟩).test_name) = false) :
    (enrich_labs labs).length = labs.length ∧
    ∃ h' : i < (enrich_labs labs).length,
      ((enrich_labs labs).get ⟨i, h'⟩).status = "Unknown" ∧
      ((enrich_labs labs).get ⟨i, h'⟩).normal_range = "Not available" ∧
      ((enrich_labs labs).get ⟨i, h'⟩).confidence ≤ 2/5 := by
  have hlen : (enrich_labs labs).length = labs.length := by simp [enrich_labs]
  have h' : i < (enrich_labs labs).length := hlen ▸ h
  have hres : resolveAlias (pyLowerS (labs.get ⟨i, h⟩).test_name) = none := by
    rw [resolveAlias_none_iff, List.any_eq_false]
    intro p hp
    rw [Bool.not_eq_true, List.any_eq_false]
    intro a ha
    rw [hna p hp a ha]
    simp
  have hget : (enrich_labs labs).get ⟨i, h'⟩ = enrichLab (labs.get ⟨i, h⟩) := by
    simp [enrich_labs, List.get_eq_getElem, List.getElem_map]
  refine ⟨hlen, h', ?_, ?_, ?_⟩
  all_goals rw [hget]; simp only [enrichLab]; rw [hres]
  simp [pyRound2_two_fifths]

theorem claim2_witness :
    (enrich_labs [⟨"Foobarase", PyNum.fin (16/5), "Unknown"⟩]).length = 1 ∧
    ∃ h' : 0 < (enrich_labs [⟨"Foobarase", PyNum.fin (16/5), "Unknown"⟩]).length,
      ((enrich_labs [⟨"Foobarase", PyNum.fin (16/5), "Unknown"⟩]).get ⟨0, h'⟩).status = "Unknown" ∧
      ((enrich_labs [⟨"Foobarase", PyNum.fin (16/5), "Unknown"⟩]).get ⟨0, h'⟩).normal_range = "Not available" ∧
      ((enrich_labs [⟨"Foobarase", PyNum.fin (16/5), "Unknown"⟩]).get ⟨0, h'⟩).confidence ≤ 2/5 :=
  claim2 [⟨"Foobarase", PyNum.fin (16/5), "Unknown"⟩] 0 (by decide) (by decide)

/-- C3 counterexample: on the single line "WBC 5.0 6.0" exactly one test
token (WBC) matches, yet the extractor emits two mentions for it, one per
parseable number on the line — not at most one with the first number. -/
theorem claim3_counterexample :
    pySplitlines "WBC 5.0 6.0".toList = ["WBC 5.0 6.0".toList] ∧
    lineTest (pyStripL "WBC 5.0 6.0".toList) = some "WBC" ∧
    (extract_labs "WBC 5.0 6.0".toList).map (fun m => (m.test_name, m.value)) =
      [("Wbc", .fin 5), ("Wbc", .fin 6)] := by
  refine ⟨by decide, by decide, ?_⟩
  with_unfolding_all rfl

/-- C3 amended: per line, at most one test token matches (the first in
vocabulary order), and one mention is emitted per parseable float token on
the line — in token order, all named after that one test. -/
theorem claim3_amended (text : List Char) :
    extract_labs text = (pySplitlines text).flatMap lineMentions ∧
    ∀ line ∈ pySplitlines text,
      (lineTest (pyStripL line) = none → lineMentions line = []) ∧
      ∀ t, lineTest (pyStripL line) = some t →
        ((lineMentions line).map (·.value) =
            (pySplit (pyStripL line)).filterMap pyFloatL ∧
          ∀ m ∈ lineMentions line,
            m.test_name = pyTitle t ∧ m.unit = lineUnit (pyStripL line)) := by
  refine ⟨extract_labs_eq text, fun line _ => ⟨?_, ?_⟩⟩
  · intro hnone
    simp [lineMentions, hnone]
  · intro t ht
    constructor
    · simp only [lineMentions, ht]
      rw [List.map_filterMap]
      apply List.filterMap_congr
      intro p _
      cases pyFloatL p <;> rfl
    · intro m hm
      simp only [lineMentions, ht] at hm
      rcases List.mem_filterMap.mp hm with ⟨p, _, hp⟩
      rcases Option.map_eq_some'.mp hp with ⟨v, _, hv⟩
      rw [← hv]
      exact ⟨rfl, rfl⟩

theorem claim3_amended_witness :
    ("WBC 5.0 6.0".toList ∈ pySplitlines "WBC 5.0 6.0".toList) ∧
    ((lineMentions "WBC 5.0 6.0".toList).map (·.value) =
      (pySplit (pyStripL "WBC 5.0 6.0".toList)).filterMap pyFloatL) := by
  have h := (claim3_amended "WBC 5.0 6.0".toList).2 "WBC 5.0 6.0".toList (by decide)
  exact ⟨by decide, (h.2 "WBC" (by decide)).1⟩

/-- C4: the labs of the assembled record are exactly the per-line mentions
in reading order, enriched and highlighted element by element — no step
re-sorts the sequence. -/
theorem claim4 (detect : List Char → String) (text : List Char) (fn : String) :
    (convert_to_json detect text fn).labs =
      ((pySplitlines text).flatMap lineMentions).map
        (fun m => addHighlightOne (enrichLab m)) ∧
    (convert_to_json detect text fn).labs =
      (extract_labs text).map (fun m => addHighlightOne (enrichLab m)) := by
  refine ⟨?_, convert_labs_eq detect text fn⟩
  rw [convert_labs_eq detect text fn, extract_labs_eq]

/-- C5: for a mention resolved to a canonical key with interval
`[low, high]`, classification is the three-way split with both bounds
counted as Normal. -/
theorem claim5 (name unitHint : String) (v : PyNum) (key : String) (ref : RefEntry)
    (hk : resolveAlias (pyLowerS name) = some key)
    (hr : lookupRange key = some ref) :
    ((enrichLab ⟨name, v, unitHint⟩).status =
      if pyLt v (.fin ref.low) then "Low"
      else if pyLt (.fin ref.high) v then "High" else "Normal") ∧
    (v = .fin ref.low → (enrichLab ⟨name, v, unitHint⟩).status = "Normal") ∧
    (v = .fin ref.high → (enrichLab ⟨name, v, unitHint⟩).status = "Normal") := by
  have hle := lookupRange_low_le_high key ref hr
  have hst : (enrichLab ⟨name, v, unitHint⟩).status =
      if pyLt v (.fin ref.low) then "Low"
      else if pyLt (.fin ref.high) v then "High" else "Normal" := by
    simp [enrichLab, hk, hr]
  refine ⟨hst, ?_, ?_⟩
  · rintro rfl
    rw [hst]
    simp [pyLt, lt_irrefl, not_lt.mpr hle]
  · rintro rfl
    rw [hst]
    simp [pyLt, lt_irrefl, not_lt.mpr hle]

theorem claim5_witness :
    ((enrichLab ⟨"Glucose", .fin 99, "mg/dL"⟩).status =
      if pyLt (.fin 99) (.fin (70 : ℚ)) then "Low"
      else if pyLt (.fin (99 : ℚ)) (.fin 99) then "High" else "Normal") ∧
    (PyNum.fin 99 = .fin ((70 : ℚ)) → (enrichLab ⟨"Glucose", .fin 99, "mg/dL"⟩).status = "Normal") ∧
    (PyNum.fin 99 = .fin ((99 : ℚ)) → (enrichLab ⟨"Glucose", .fin 99, "mg/dL"⟩).status = "Normal") :=
  claim5 "Glucose" "mg/dL" (.fin 99) "glucose" ⟨70, 99, "70", "99", "mg/dL"⟩
    (by with_unfolding_all rfl) (by with_unfolding_all rfl)

/-- C6: in the assembled record, highlight is the advertised function of
status, in both directions. -/
theorem claim6 (detect : List Char → String) (text : List Char) (fn : String)
    (r : Enriched) (hmem : r ∈ (convert_to_json detect text fn).labs) :
    (r.highlight = "warning" ↔ (r.status = "Low" ∨ r.status = "High")) ∧
    (r.highlight = "normal" ↔ r.status = "Normal") ∧
    (r.highlight = "unknown" ↔ r.status = "Unknown") := by
  rw [convert_labs_eq] at hmem
  rcases List.mem_map.mp hmem with ⟨m, _, rfl⟩
  rcases enrichLab_status_highlight m with ⟨h1, _⟩ | ⟨h1, _⟩ | ⟨h1, _⟩ | ⟨h1, _⟩ <;>
    · rw [show (addHighlightOne (enrichLab m)).highlight =
          (if (enrichLab m).status = "Normal" then "normal"
           else if (enrichLab m).status = "Low" then "warning"
           else if (enrichLab m).status = "High" then "warning"
           else "unknown") from rfl, addHighlightOne_status, h1]
      refine ⟨?_, ?_, ?_⟩ <;> simp

/-- C7: confidence is exactly 0.95 when some alias of some canonical key is
contained in the lower-cased label, exactly 0.4 otherwise; it always lies
in [0, 1], and the matched value dominates the unmatched one. -/
theorem claim7 (lab : Mention) :
    ((enrichLab lab).confidence =
      if (aliases.any fun p => p.2.any fun a => substrS a (pyLowerS lab.test_name))
      then 19/20 else 2/5) ∧
    0 ≤ (enrichLab lab).confidence ∧ (enrichLab lab).confidence ≤ 1 ∧
    (2/5 : ℚ) ≤ 19/20 := by
  have hmain : (enrichLab lab).confidence =
      if (aliases.any fun p => p.2.any fun a => substrS a (pyLowerS lab.test_name))
      then 19/20 else 2/5 := by
    rcases hres : resolveAlias (pyLowerS lab.test_name) with _ | key
    · rw [(resolveAlias_none_iff _).mp hres]
      simp only [enrichLab, hres]
      simpa using pyRound2_two_fifths
    · rw [resolveAlias_some_any _ _ hres]
      rcases hsome : lookupRange key with _ | ref
      · exact absurd (resolveAlias_some_lookup _ _ hres) (by simp [hsome])
      · simp only [enrichLab, hres, hsome]
        simpa using pyRound2_ninety_five
  refine ⟨hmain, ?_, ?_, by norm_num⟩ <;> rw [hmain] <;> split <;> norm_num

/-- C9: `format_labs_for_llm` returns the sentinel on an empty list and
otherwise one fixed-format line per lab, newline-joined, in order. -/
theorem claim9 :
    format_labs_for_llm [] = "No lab values were detected." ∧
    ∀ labs : List Enriched, labs ≠ [] →
      format_labs_for_llm labs =
        String.intercalate "\n" (labs.map fun lab =>
          "- " ++ lab.test_name ++ ": " ++ pyNumRepr lab.value ++ " " ++ lab.unit ++
          " (Normal: " ++ lab.normal_range ++ ", Status: " ++ lab.status ++ ")") := by
  refine ⟨rfl, fun labs h => ?_⟩
  simp [format_labs_for_llm, h]

theorem claim9_witness :
    format_labs_for_llm [] = "No lab values were detected." ∧
    format_labs_for_llm [⟨"Wbc", .fin 5, "Unknown", "4.0–11.0", "Normal", "normal", 19/20⟩] =
      String.intercalate "\n"
        ([⟨"Wbc", .fin 5, "Unknown", "4.0–11.0", "Normal", "normal", 19/20⟩].map
          fun lab : Enriched =>
            "- " ++ lab.test_name ++ ": " ++ pyNumRepr lab.value ++ " " ++ lab.unit ++
            " (Normal: " ++ lab.normal_range ++ ", Status: " ++ lab.status ++ ")") :=
  ⟨claim9.1, claim9.2 _ (by simp)⟩

theorem ciStartsWith_lower (pat : List Char) :
    ∀ l : List Char, ciStartsWith pat l = true → pyLowerL (l.take pat.length) = pat := by
  induction pat with
  | nil => intro l _; rfl
  | cons p ps ih =>
    intro l h
    cases l with
    | nil => simp [ciStartsWith] at h
    | cons c cs =>
      rw [ciStartsWith, Bool.and_eq_true] at h
      have h1 : p = toLowerC c := by simpa using h.1
      simp only [List.length_cons, List.take_succ_cons, pyLowerL, List.map_cons]
      rw [← h1, ← pyLowerL]
      rw [ih cs h.2]

theorem genderTry_spec (x g : List Char) (h : genderTry x = some g) :
    pyLowerL g = "male".toList ∨ pyLowerL g = "female".toList := by
  unfold genderTry at h
  dsimp only at h
  split_ifs at h with h1 h2
  · left
    have := ciStartsWith_lower ['m', 'a', 'l', 'e'] _ h1
    simpa using Option.some.inj h ▸ this
  · right
    have := ciStartsWith_lower ['f', 'e', 'm', 'a', 'l', 'e'] _ h2
    simpa using Option.some.inj h ▸ this

theorem orElse_cases {α : Type} (a b : Option α) (x : α) (h : (a <|> b) = some x) :
    a = some x ∨ b = some x := by
  cases a <;> simp_all

theorem genderTail_spec (r g : List Char) (h : genderTail r = some g) :
    pyLowerL g = "male".toList ∨ pyLowerL g = "female".toList := by
  unfold genderTail at h
  rcases r with _ | ⟨c, r'⟩
  · exact genderTry_spec _ _ h
  · dsimp only at h
    split_ifs at h with h1
    · rcases orElse_cases _ _ _ h with h' | h' <;> exact genderTry_spec _ _ h'
    · exact genderTry_spec _ _ h

theorem genderAt_spec (l g : List Char) (h : genderAt l = some g) :
    pyLowerL g = "male".toList ∨ pyLowerL g = "female".toList := by
  unfold genderAt at h
  split_ifs at h <;> exact genderTail_spec _ _ h

theorem reSearchGender_spec (l g : List Char) (h : reSearchGender l = some g) :
    pyLowerL g = "male".toList ∨ pyLowerL g = "female".toList := by
  induction l with
  | nil => simp [reSearchGender] at h
  | cons c t ih =>
    rw [reSearchGender] at h
    rcases ha : genderAt (c :: t) with _ | g'
    · rw [ha] at h
      exact ih h
    · rw [ha] at h
      exact Option.some.inj h ▸ genderAt_spec _ _ ha

/-- C8 counterexample: a lower-case "male" after the gender label is
captured verbatim, so the gender field holds "male", which is neither null
nor a member of {"Male", "Female"}. -/
theorem claim8_counterexample :
    (extract_patient_info "Gender: male".toList).gender = some "male" ∧
    "male" ≠ "Male" ∧ "male" ≠ "Female" :=
  ⟨rfl, by decide, by decide⟩

/-- C8 amended: the gender field is null or a string equal to "Male" or
"Female" up to letter case (the case-insensitive match stores the text as
written). -/
theorem claim8_amended (text : List Char) :
    (extract_patient_info text).gender = none ∨
    ∃ g : String, (extract_patient_info text).gender = some g ∧
      (pyLowerS g = "male" ∨ pyLowerS g = "female") := by
  rcases hg : reSearchGender text with _ | l
  · left
    simp [extract_patient_info, hg]
  · right
    refine ⟨String.mk l, by simp [extract_patient_info, hg], ?_⟩
    have hl := reSearchGender_spec text l hg
    have : pyLowerS (String.mk l) = String.mk (pyLowerL l) := rfl
    rw [this]
    rcases hl with h' | h' <;> rw [h']
    · left; rfl
    · right; rfl

theorem claim6_witness :
    ((⟨"Wbc", .fin 5, "Unknown", "4.0–11.0", "Normal", "normal", 19/20⟩ : Enriched).highlight
        = "warning" ↔
      ((⟨"Wbc", .fin 5, "Unknown", "4.0–11.0", "Normal", "normal", 19/20⟩ : Enriched).status = "Low" ∨
       (⟨"Wbc", .fin 5, "Unknown", "4.0–11.0", "Normal", "normal", 19/20⟩ : Enriched).status = "High")) ∧
    ((⟨"Wbc", .fin 5, "Unknown", "4.0–11.0", "Normal", "normal", 19/20⟩ : Enriched).highlight
        = "normal" ↔
      (⟨"Wbc", .fin 5, "Unknown", "4.0–11.0", "Normal", "normal", 19/20⟩ : Enriched).status = "Normal") ∧
    ((⟨"Wbc", .fin 5, "Unknown", "4.0–11.0", "Normal", "normal", 19/20⟩ : Enriched).highlight
        = "unknown" ↔
      (⟨"Wbc", .fin 5, "Unknown", "4.0–11.0", "Normal", "normal", 19/20⟩ : Enriched).status = "Unknown") :=
  claim6 (fun _ => "unknown") "WBC 5.0".toList "report.txt" _ (by
    rw [show (convert_to_json (fun _ => "unknown") "WBC 5.0".toList "report.txt").labs =
        [⟨"Wbc", .fin 5, "Unknown", "4.0–11.0", "Normal", "normal", 19/20⟩] by
      with_unfolding_all rfl]
    exact List.mem_singleton_self _)

/-! ## Idempotence of `clean_text`: stage lemmas under `Shape` -/

theorem goodChar_ne_mu (c : Char) (h : goodChar c) : c ≠ 'µ' := by
  rintro rfl
  exact absurd h.2.1 (by decide)

theorem goodChar_ne_caret (c : Char) (h : goodChar c) : c ≠ '^' := by
  rintro rfl
  exact absurd h.1 (by decide)

theorem goodChar_ne_at (c : Char) (h : goodChar c) : c ≠ '@' := by
  rintro rfl
  exact absurd h.1 (by decide)

theorem tokenR_chars : ∀ c ∈ tokenR, goodChar c ∨ c = '^' ∨ c = 'µ' := by
  simp only [goodChar]
  decide

theorem Shape.chars {t : List Char} (h : Shape t) :
    ∀ c ∈ t, goodChar c ∨ c = '^' ∨ c = 'µ' := by
  induction h with
  | nil => intro c hc; simp at hc
  | tok r _ ih =>
    intro c hc
    rcases List.mem_append.mp hc with hc | hc
    · exact tokenR_chars c hc
    · exact ih c hc
  | chr c r hok _ ih =>
    intro d hd
    rcases List.mem_cons.mp hd with rfl | hd
    · exact Or.inl hok.1
    · exact ih d hd

theorem eraseMu_cons_ne (c : Char) (r : List Char) (h : c ≠ 'µ') :
    eraseMu (c :: r) = c :: eraseMu r := by
  simp [eraseMu, h]

theorem mapCaret_cons_ne (c : Char) (r : List Char) (h : c ≠ '^') :
    mapCaret (c :: r) = c :: mapCaret r := by
  simp [mapCaret, h]

theorem decode_tok (r : List Char) :
    mapCaret (eraseMu (tokenR ++ r)) = tokenU ++ mapCaret (eraseMu r) := by
  rw [show eraseMu (tokenR ++ r) = eraseMu tokenR ++ eraseMu r from List.filter_append ..,
    show mapCaret (eraseMu tokenR ++ eraseMu r)
      = mapCaret (eraseMu tokenR) ++ mapCaret (eraseMu r) from List.map_append ..]
  rfl

theorem decode_cons (c : Char) (r : List Char) (h : goodChar c) :
    mapCaret (eraseMu (c :: r)) = c :: mapCaret (eraseMu r) := by
  rw [eraseMu_cons_ne c r (goodChar_ne_mu c h), mapCaret_cons_ne c _ (goodChar_ne_caret c h)]

theorem eraseMu_tok (r : List Char) :
    eraseMu (tokenR ++ r) = ['x', '1', '0', '^', '3', '/', 'L'] ++ eraseMu r := by
  rw [show eraseMu (tokenR ++ r) = eraseMu tokenR ++ eraseMu r from List.filter_append ..]
  rfl

theorem pyAscii_shape {t : List Char} (h : Shape t) : pyAscii t = eraseMu t := by
  apply List.filter_congr
  intro c hc
  rcases h.chars c hc with hg | rfl | rfl
  · have h1 := hg.2.1
    have h2 : c ≠ 'µ' := goodChar_ne_mu c hg
    simp [h1, h2]
  · decide
  · decide

theorem isHttpAt_false_of_ne (c : Char) (l : List Char) (h : c ≠ 'h') :
    isHttpAt (c :: l) = false := by
  have : ('h' = c) = False := by simp [Ne.symm h]
  simp [isHttpAt, startsWithL, this]

theorem subHttp_id {l : List Char} (h : NoHttp l) : subHttp l = l := by
  induction l with
  | nil => simp [subHttp]
  | cons c cs ih =>
    rw [NoHttp] at h
    rw [subHttp, if_neg (by simp [h.1])]
    rw [ih h.2]

theorem shape_noHttp {t : List Char} (h : Shape t) : NoHttp (eraseMu t) := by
  induction h with
  | nil => trivial
  | tok r _ ih =>
    rw [eraseMu_tok]
    simp only [List.cons_append, List.nil_append, NoHttp]
    exact ⟨isHttpAt_false_of_ne _ _ (by decide), isHttpAt_false_of_ne _ _ (by decide),
      isHttpAt_false_of_ne _ _ (by decide), isHttpAt_false_of_ne _ _ (by decide),
      isHttpAt_false_of_ne _ _ (by decide), isHttpAt_false_of_ne _ _ (by decide),
      isHttpAt_false_of_ne _ _ (by decide), ih⟩
  | chr c r hok _ ih =>
    rw [eraseMu_cons_ne c r (goodChar_ne_mu c hok.1)]
    rw [NoHttp]
    exact ⟨hok.2.1, ih⟩

theorem subEmail_id {l : List Char} (h : ∀ c ∈ l, c ≠ '@') : subEmail l = l := by
  induction l with
  | nil => simp [subEmail]
  | cons c cs ih =>
    have hfalse : isEmailAt (c :: cs) = false := by
      rw [isEmailAt]
      by_contra hcon
      have hmem : '@' ∈ ((((c :: cs).takeWhile fun x => !isPySpaceC x).drop 1).dropLast) := by
        have := Bool.not_eq_false _ |>.mp hcon
        simpa [List.contains_iff_exists_mem_beq] using this
      have : '@' ∈ c :: cs :=
        (List.takeWhile_sublist _).subset
          (List.drop_subset _ _ ((List.dropLast_sublist _).subset hmem))
      exact absurd rfl (h '@' this)
    rw [subEmail, dif_neg (by simp [hfalse])]
    rw [ih fun d hd => h d (List.mem_cons_of_mem c hd)]

theorem shape_no_at {t : List Char} (h : Shape t) : ∀ c ∈ eraseMu t, c ≠ '@' := by
  intro c hc
  have hmem : c ∈ t := (List.filter_sublist _).subset hc
  rcases h.chars c hmem with hg | rfl | rfl
  · exact goodChar_ne_at c hg
  · decide
  · decide

theorem pyMapBad_shape {t : List Char} (h : Shape t) :
    pyMapBad (eraseMu t) = mapCaret (eraseMu t) := by
  apply List.map_congr_left
  intro c hc
  have hmem : c ∈ t := (List.filter_sublist _).subset hc
  rcases h.chars c hmem with hg | rfl | rfl
  · rw [if_pos hg.1, if_neg]
    simp [goodChar_ne_caret c hg]
  · rfl
  · have : ('µ' : Char) ∈ eraseMu t := hc
    simp [eraseMu] at this

theorem NoAdj_cons_not (p : Char → Bool) (a : Char) (l : List Char)
    (h : p a = false) : NoAdj p (a :: l) ↔ NoAdj p l := by
  cases l with
  | nil => simp [NoAdj]
  | cons b t =>
    rw [NoAdj]
    simp [h]

theorem NoAdj_cons_cons (p : Char → Bool) (a b : Char) (t : List Char) :
    NoAdj p (a :: b :: t) ↔ (¬(p a = true ∧ p b = true) ∧ NoAdj p (b :: t)) := Iff.rfl

theorem collapseRun_id (p : Char → Bool) (r : Char) :
    ∀ l : List Char, (∀ c ∈ l, p c = true → c = r) → NoAdj p l →
      collapseRun p r l = l := by
  intro l
  induction l with
  | nil => intro _ _; simp [collapseRun]
  | cons c cs ih =>
    intro hall hadj
    by_cases hp : p c = true
    · rw [collapseRun, if_pos hp]
      have hdw : cs.dropWhile p = cs := by
        cases cs with
        | nil => rfl
        | cons d cs' =>
          have hd : p d = false := by
            rcases (NoAdj_cons_cons p c d cs').mp hadj with ⟨hpair, _⟩
            by_contra hcon
            exact hpair ⟨hp, by simpa using hcon⟩
          rw [List.dropWhile_cons, if_neg (by simp [hd])]
      have htail : NoAdj p cs := by
        cases cs with
        | nil => trivial
        | cons d cs' => exact ((NoAdj_cons_cons p c d cs').mp hadj).2
      rw [hdw, hall c (by simp) hp]
      rw [ih (fun d hd hpd => hall d (List.mem_cons_of_mem c hd) hpd) htail]
    · rw [collapseRun, if_neg hp]
      have htail : NoAdj p cs := by
        cases cs with
        | nil => trivial
        | cons d cs' => exact ((NoAdj_cons_cons p c d cs').mp hadj).2
      rw [ih (fun d hd hpd => hall d (List.mem_cons_of_mem c hd) hpd) htail]

theorem shape_decoded_chars {t : List Char} (h : Shape t) :
    ∀ c ∈ mapCaret (eraseMu t), goodChar c ∨ c = ' ' := by
  intro c hc
  rcases List.mem_map.mp hc with ⟨d, hd, rfl⟩
  have hmem : d ∈ t := (List.filter_sublist _).subset hd
  rcases h.chars d hmem with hg | rfl | rfl
  · rw [if_neg (goodChar_ne_caret d hg)]
    exact Or.inl hg
  · simp
  · have : ('µ' : Char) ∈ eraseMu t := hd
    simp [eraseMu] at this

theorem shape_NoBB_decoded {t : List Char} (h : Shape t) :
    NoAdj isBlankC (mapCaret (eraseMu t)) := by
  induction h with
  | nil => trivial
  | tok r _ ih =>
    rw [decode_tok]
    simp only [tokenU, List.cons_append, List.nil_append]
    rw [NoAdj_cons_not _ _ _ (by decide), NoAdj_cons_not _ _ _ (by decide),
      NoAdj_cons_not _ _ _ (by decide), NoAdj_cons_cons]
    refine ⟨by decide, ?_⟩
    rw [NoAdj_cons_not _ _ _ (by decide), NoAdj_cons_not _ _ _ (by decide),
      NoAdj_cons_not _ _ _ (by decide)]
    exact ih
  | chr c r hok hr ih =>
    rw [decode_cons c r hok.1]
    by_cases hb : isBlankC c = true
    · have hc : c = ' ' := by
        rcases (by simpa [isBlankC] using hb : c = ' ' ∨ c = '\t') with h' | h'
        · exact h'
        · exact absurd h' hok.1.2.2
      rcases hd : mapCaret (eraseMu r) with _ | ⟨b, tl⟩
      · trivial
      · rw [NoAdj_cons_cons]
        have hbgood : goodChar b ∨ b = ' ' :=
          shape_decoded_chars hr b (by rw [hd]; exact List.mem_cons_self _ _)
        have hbne : b ≠ ' ' := by
          have := hok.2.2.1 hc
          rw [dhead, hd] at this
          simpa using fun hcon => this (by simp [hcon])
        have hbblank : isBlankC b = false := by
          rcases hbgood with hg | h'
          · simp [isBlankC, hbne, hg.2.2]
          · exact absurd h' hbne
        refine ⟨by simp [hbblank], hd ▸ ih⟩
    · rw [NoAdj_cons_not _ _ _ (by simpa using hb)]
      exact ih

theorem shape_NoNN_decoded {t : List Char} (h : Shape t) :
    NoAdj (fun c => c = '\n') (mapCaret (eraseMu t)) := by
  induction h with
  | nil => trivial
  | tok r _ ih =>
    rw [decode_tok]
    simp only [tokenU, List.cons_append, List.nil_append]
    rw [NoAdj_cons_not _ _ _ (by decide), NoAdj_cons_not _ _ _ (by decide),
      NoAdj_cons_not _ _ _ (by decide), NoAdj_cons_not _ _ _ (by decide),
      NoAdj_cons_not _ _ _ (by decide), NoAdj_cons_not _ _ _ (by decide),
      NoAdj_cons_not _ _ _ (by decide)]
    exact ih
  | chr c r hok hr ih =>
    rw [decode_cons c r hok.1]
    by_cases hb : c = '\n'
    · rcases hd : mapCaret (eraseMu r) with _ | ⟨b, tl⟩
      · trivial
      · rw [NoAdj_cons_cons]
        have hbne : b ≠ '\n' := by
          have := hok.2.2.2.1 hb
          rw [dhead, hd] at this
          simpa using fun hcon => this (by simp [hcon])
        refine ⟨by simp [hbne], hd ▸ ih⟩
    · rw [NoAdj_cons_not _ _ _ (by simp [hb])]
      exact ih

theorem collapseBlank_shape {t : List Char} (h : Shape t) :
    collapseBlank (mapCaret (eraseMu t)) = mapCaret (eraseMu t) := by
  apply collapseRun_id
  · intro c hc hpc
    rcases shape_decoded_chars h c hc with hg | rfl
    · rcases (by simpa [isBlankC] using hpc : c = ' ' ∨ c = '\t') with h' | h'
      · exact h'
      · exact absurd h' hg.2.2
    · rfl
  · exact shape_NoBB_decoded h

theorem collapseNl_shape {t : List Char} (h : Shape t) :
    collapseNl (mapCaret (eraseMu t)) = mapCaret (eraseMu t) := by
  apply collapseRun_id
  · intro c _ hpc
    simpa using hpc
  · exact shape_NoNN_decoded h

theorem startsWith_append_self (p z : List Char) : startsWithL p (p ++ z) = true := by
  induction p with
  | nil => rfl
  | cons a ps ih => simp [startsWithL, ih]

theorem replaceAllL_append_self (pat rep : List Char) (hpat : pat ≠ []) (z : List Char) :
    replaceAllL pat rep (pat ++ z) = rep ++ replaceAllL pat rep z := by
  cases pat with
  | nil => exact absurd rfl hpat
  | cons p ps =>
    rw [List.cons_append, replaceAllL,
      if_pos ⟨by simp, startsWith_append_self (p :: ps) z⟩]
    congr 1
    congr 1
    simp

theorem replaceAllL_cons_neg (pat rep : List Char) (c : Char) (cs : List Char)
    (h : startsWithL pat (c :: cs) = false) :
    replaceAllL pat rep (c :: cs) = c :: replaceAllL pat rep cs := by
  rw [replaceAllL, if_neg (by simp [h])]

theorem replaceU_decode {t : List Char} (h : Shape t) :
    replaceAllL tokenU tokenR (mapCaret (eraseMu t)) = t := by
  induction h with
  | nil => simp [eraseMu, mapCaret, replaceAllL]
  | tok r _ ih => rw [decode_tok, replaceAllL_append_self tokenU tokenR (by simp [tokenU]), ih]
  | chr c r hok _ ih =>
    rw [decode_cons c r hok.1, replaceAllL_cons_neg _ _ _ _ hok.2.2.2.2.1, ih]

theorem replaceU2_token (z : List Char) :
    replaceAllL tokenU2 tokenR (tokenR ++ z) = tokenR ++ replaceAllL tokenU2 tokenR z := by
  simp only [tokenR, List.cons_append, List.nil_append]
  rw [replaceAllL_cons_neg _ _ _ _ (by simp [tokenU2, startsWithL]),
    replaceAllL_cons_neg _ _ _ _ (by simp [tokenU2, startsWithL]),
    replaceAllL_cons_neg _ _ _ _ (by simp [tokenU2, startsWithL]),
    replaceAllL_cons_neg _ _ _ _ (by simp [tokenU2, startsWithL]),
    replaceAllL_cons_neg _ _ _ _ (by simp [tokenU2, startsWithL]),
    replaceAllL_cons_neg _ _ _ _ (by simp [tokenU2, startsWithL]),
    replaceAllL_cons_neg _ _ _ _ (by simp [tokenU2, startsWithL]),
    replaceAllL_cons_neg _ _ _ _ (by simp [tokenU2, startsWithL])]

theorem replaceU2_shape {t : List Char} (h : Shape t) :
    replaceAllL tokenU2 tokenR t = t := by
  induction h with
  | nil => simp [replaceAllL]
  | tok r _ ih => rw [replaceU2_token, ih]
  | chr c r hok _ ih => rw [replaceAllL_cons_neg _ _ _ _ hok.2.2.2.2.2, ih]

/-- The whole pipeline up to (but not including) the final `strip()` is the
identity on strings of the output shape. -/
theorem chain_shape {t : List Char} (h : Shape t) :
    replaceAllL tokenU2 tokenR (replaceAllL tokenU tokenR
      (collapseNl (collapseBlank (pyMapBad (subEmail (subHttp (pyAscii t))))))) = t := by
  rw [pyAscii_shape h, subHttp_id (shape_noHttp h), subEmail_id (shape_no_at h),
    pyMapBad_shape h, collapseBlank_shape h, collapseNl_shape h,
    replaceU_decode h, replaceU2_shape h]

theorem pyStripL_eq_rdrop (l : List Char) :
    pyStripL l = List.rdropWhile isPySpaceC (l.dropWhile isPySpaceC) := rfl

theorem pyStripL_idem (l : List Char) : pyStripL (pyStripL l) = pyStripL l := by
  rw [pyStripL_eq_rdrop, pyStripL_eq_rdrop]
  have h1 : List.dropWhile isPySpaceC
      (List.rdropWhile isPySpaceC (l.dropWhile isPySpaceC)) =
      List.rdropWhile isPySpaceC (l.dropWhile isPySpaceC) := by
    rw [List.dropWhile_eq_self_iff]
    intro hl
    have hpre := List.rdropWhile_prefix (l := l.dropWhile isPySpaceC) (p := isPySpaceC)
    have hlen : 0 < (l.dropWhile isPySpaceC).length :=
      lt_of_lt_of_le hl hpre.length_le
    have hget : (List.rdropWhile isPySpaceC (l.dropWhile isPySpaceC)).get ⟨0, hl⟩ =
        (l.dropWhile isPySpaceC).get ⟨0, hlen⟩ := by
      simp only [List.get_eq_getElem]
      exact hpre.getElem hl
    rw [hget]
    have := (List.dropWhile_eq_self_iff (p := isPySpaceC)
      (l := l.dropWhile isPySpaceC)).mp (List.dropWhile_idempotent _ _)
    exact this hlen
  rw [h1, List.rdropWhile_idempotent]

/-! ### Establishing the invariants of the intermediate string -/

theorem head_dropWhile_false (q : Char → Bool) :
    ∀ l : List Char, ∀ a, (l.dropWhile q).head? = some a → q a = false := by
  intro l
  induction l with
  | nil => intro a h; simp at h
  | cons c cs ih =>
    intro a h
    rw [List.dropWhile_cons] at h
    by_cases hq : q c = true
    · rw [if_pos (by simp [hq])] at h
      exact ih a h
    · rw [if_neg (by simp at hq; simp [hq])] at h
      simp at h
      rw [← h]
      simpa using hq

theorem NoHttp_suffix {z z' : List Char} (h : NoHttp z) (hsuf : z' <:+ z) : NoHttp z' := by
  rcases hsuf with ⟨pre, rfl⟩
  induction pre with
  | nil => exact h
  | cons a pre ih =>
    rw [List.cons_append, NoHttp] at h
    exact ih h.2

theorem Al_cons_nonspace {a : Char} {y z : List Char} (h : Al (a :: y) z)
    (ha : isPySpaceC a = false) : ∃ z', z = a :: z' ∧ Al y z' := by
  cases h with
  | copy _ _ z' h' => exact ⟨z', rfl, h'⟩
  | brk _ _ _ z' hs _ _ => rw [hs] at ha; exact absurd ha (by simp)

theorem isHttpAt_iff (c : Char) (l : List Char) :
    isHttpAt (c :: l) = true ↔
      c = 'h' ∧ ∃ d Y, l = 't' :: 't' :: 'p' :: d :: Y ∧ isPySpaceC d = false := by
  rcases l with _ | ⟨a, _ | ⟨b, _ | ⟨e, _ | ⟨d, Y⟩⟩⟩⟩ <;>
    simp [isHttpAt, startsWithL] <;> aesop

theorem Al_noHttp : ∀ {y z : List Char}, Al y z → NoHttp z → NoHttp y := by
  intro y z hAl
  induction hAl with
  | nil => intro _; trivial
  | copy c y' z' h' ih =>
    intro hz
    rw [NoHttp] at hz ⊢
    refine ⟨?_, ih hz.2⟩
    by_contra hcon
    have hcon' := (isHttpAt_iff c y').mp (by simpa using hcon)
    rcases hcon' with ⟨rfl, d, Y, rfl, hd⟩
    rcases Al_cons_nonspace h' (by decide) with ⟨z1, rfl, h1⟩
    rcases Al_cons_nonspace h1 (by decide) with ⟨z2, rfl, h2⟩
    rcases Al_cons_nonspace h2 (by decide) with ⟨z3, rfl, h3⟩
    rcases Al_cons_nonspace h3 hd with ⟨z4, rfl, _⟩
    exact absurd ((isHttpAt_iff _ _).mpr ⟨rfl, d, z4, rfl, hd⟩) (by simp [hz.1])
  | brk s y' z' z'' hs hsuf h' ih =>
    intro hz
    rw [NoHttp]
    refine ⟨isHttpAt_false_of_ne _ _ ?_, ih (NoHttp_suffix hz hsuf)⟩
    rintro rfl
    exact absurd hs (by decide)

theorem subHttp_cons_inv :
    ∀ (w : List Char) (a : Char) (Y : List Char), subHttp w = a :: Y →
      (∃ w', w = a :: w' ∧ Y = subHttp w' ∧ isHttpAt w = false) ∨ isPySpaceC a = true := by
  suffices H : ∀ n (w : List Char), w.length ≤ n → ∀ a Y, subHttp w = a :: Y →
      (∃ w', w = a :: w' ∧ Y = subHttp w' ∧ isHttpAt w = false) ∨ isPySpaceC a = true by
    intro w a Y h
    exact H w.length w le_rfl a Y h
  intro n
  induction n with
  | zero =>
    intro w hw a Y h
    rw [List.length_eq_zero.mp (Nat.le_zero.mp hw)] at h
    simp [subHttp] at h
  | succ n ih =>
    intro w hw a Y h
    cases w with
    | nil => simp [subHttp] at h
    | cons b bs =>
      rw [subHttp] at h
      by_cases hb : isHttpAt (b :: bs) = true
      · rw [if_pos hb] at h
        have hlen : (dropHttp (b :: bs)).length ≤ n := by
          have h4 : (dropHttp (b :: bs)).length ≤ bs.length + 1 - 4 := by
            simp only [dropHttp]
            refine le_trans (List.dropWhile_sublist _).length_le ?_
            simp
          simp only [List.length_cons] at hw
          omega
        rcases ih (dropHttp (b :: bs)) hlen a Y h with ⟨w', hw', _, _⟩ | hsp
        · right
          have hhd : (dropHttp (b :: bs)).head? = some a := by rw [hw']; rfl
          have hfa := head_dropWhile_false (fun c => !isPySpaceC c) ((b :: bs).drop 4) a
            (by simpa [dropHttp] using hhd)
          simpa using hfa
        · exact Or.inr hsp
      · rw [if_neg hb] at h
        cases h
        exact Or.inl ⟨bs, rfl, rfl, by simpa using hb⟩

theorem noHttp_subHttp (l : List Char) : NoHttp (subHttp l) := by
  suffices H : ∀ n (l : List Char), l.length ≤ n → NoHttp (subHttp l) from
    H l.length l le_rfl
  intro n
  induction n with
  | zero =>
    intro l hl
    rw [List.length_eq_zero.mp (Nat.le_zero.mp hl)]
    simp [subHttp]
    trivial
  | succ n ih =>
    intro l hl
    cases l with
    | nil => simp [subHttp]; trivial
    | cons c cs =>
      rw [subHttp]
      by_cases hb : isHttpAt (c :: cs) = true
      · rw [if_pos hb]
        refine ih (dropHttp (c :: cs)) ?_
        have h4 : (dropHttp (c :: cs)).length ≤ cs.length + 1 - 4 := by
          simp only [dropHttp]
          refine le_trans (List.dropWhile_sublist _).length_le ?_
          simp
        simp only [List.length_cons] at hl
        omega
      · rw [if_neg hb]
        rw [NoHttp]
        refine ⟨?_, ih cs (by simpa [Nat.lt_succ_iff] using hl)⟩
        by_contra hcon
        have hcon' := (isHttpAt_iff c (subHttp cs)).mp (by simpa using hcon)
        rcases hcon' with ⟨rfl, d, Y, hY, hd⟩
        rcases subHttp_cons_inv cs _ _ hY with ⟨c1, rfl, h1, _⟩ | hsp
        · rcases subHttp_cons_inv c1 _ _ h1.symm with ⟨c2, rfl, h2, _⟩ | hsp
          · rcases subHttp_cons_inv c2 _ _ h2.symm with ⟨c3, rfl, h3, _⟩ | hsp
            · rcases subHttp_cons_inv c3 _ _ h3.symm with ⟨c4, rfl, _, _⟩ | hsp
              · exact absurd ((isHttpAt_iff _ _).mpr ⟨rfl, d, c4, rfl, hd⟩) (by simp [hb])
              · rw [hsp] at hd; exact absurd hd (by simp)
            · exact absurd hsp (by decide)
          · exact absurd hsp (by decide)
        · exact absurd hsp (by decide)

theorem Al_destruct {a : Char} {y w : List Char} (h : Al (a :: y) w) :
    ∃ w', Al y w' ∧ (w = a :: w' ∨ (isPySpaceC a = true ∧ w' <:+ w)) := by
  cases h with
  | copy _ _ z' h' => exact ⟨z', h', Or.inl rfl⟩
  | brk _ _ _ z' hs hsuf h' => exact ⟨z', h', Or.inr ⟨hs, hsuf⟩⟩

theorem isEmailAt_nonspace {c : Char} {cs : List Char}
    (h : isEmailAt (c :: cs) = true) : isPySpaceC c = false := by
  by_contra hcon
  have hsp : isPySpaceC c = true := by simpa using hcon
  rw [isEmailAt, List.takeWhile_cons] at h
  simp [hsp] at h

theorem subEmail_cons_inv :
    ∀ (w : List Char) (a : Char) (Y : List Char), subEmail w = a :: Y →
      (∃ w', w = a :: w' ∧ Y = subEmail w' ∧ isEmailAt w = false) ∨ isPySpaceC a = true := by
  suffices H : ∀ n (w : List Char), w.length ≤ n → ∀ a Y, subEmail w = a :: Y →
      (∃ w', w = a :: w' ∧ Y = subEmail w' ∧ isEmailAt w = false) ∨ isPySpaceC a = true by
    intro w a Y h
    exact H w.length w le_rfl a Y h
  intro n
  induction n with
  | zero =>
    intro w hw a Y h
    rw [List.length_eq_zero.mp (Nat.le_zero.mp hw)] at h
    simp [subEmail] at h
  | succ n ih =>
    intro w hw a Y h
    cases w with
    | nil => simp [subEmail] at h
    | cons b bs =>
      rw [subEmail] at h
      by_cases hb : isEmailAt (b :: bs) = true
      · rw [dif_pos hb] at h
        have hbns := isEmailAt_nonspace hb
        have hdr : dropRun (b :: bs) = bs.dropWhile fun c => !isPySpaceC c := by
          simp [dropRun, List.dropWhile_cons, hbns]
        have hlen : (dropRun (b :: bs)).length ≤ n := by
          rw [hdr]
          have := (List.dropWhile_sublist (l := bs) fun c => !isPySpaceC c).length_le
          simp only [List.length_cons] at hw
          omega
        rcases ih (dropRun (b :: bs)) hlen a Y h with ⟨w', hw', _, _⟩ | hsp
        · right
          have hhd : ((b :: bs).dropWhile fun c => !isPySpaceC c).head? = some a := by
            show (dropRun (b :: bs)).head? = some a
            rw [hw']; rfl
          have hfa := head_dropWhile_false (fun c => !isPySpaceC c) (b :: bs) a hhd
          simpa using hfa
        · exact Or.inr hsp
      · rw [dif_neg hb] at h
        cases h
        exact Or.inl ⟨bs, rfl, rfl, by simpa using hb⟩

theorem subEmail_al : ∀ z : List Char, Al (subEmail z) z := by
  suffices H : ∀ n (z : List Char), z.length ≤ n → Al (subEmail z) z from
    fun z => H z.length z le_rfl
  intro n
  induction n with
  | zero =>
    intro z hz
    rw [List.length_eq_zero.mp (Nat.le_zero.mp hz)]
    rw [show subEmail [] = [] by simp [subEmail]]
    exact Al.nil []
  | succ n ih =>
    intro z hz
    cases z with
    | nil =>
      rw [show subEmail [] = [] by simp [subEmail]]
      exact Al.nil []
    | cons c cs =>
      rw [subEmail]
      by_cases hb : isEmailAt (c :: cs) = true
      · rw [dif_pos hb]
        have hbns := isEmailAt_nonspace hb
        have hdr : dropRun (c :: cs) = cs.dropWhile fun x => !isPySpaceC x := by
          simp [dropRun, List.dropWhile_cons, hbns]
        have hlen : (dropRun (c :: cs)).length ≤ n := by
          rw [hdr]
          have := (List.dropWhile_sublist (l := cs) fun x => !isPySpaceC x).length_le
          simp only [List.length_cons] at hz
          omega
        have hIH : Al (subEmail (dropRun (c :: cs))) (dropRun (c :: cs)) :=
          ih _ hlen
        have hdsuf : dropRun (c :: cs) <:+ (c :: cs) := List.dropWhile_suffix _
        rcases hout : subEmail (dropRun (c :: cs)) with _ | ⟨a, Y⟩
        · exact Al.nil _
        · rw [hout] at hIH
          have ha : isPySpaceC a = true := by
            rcases subEmail_cons_inv _ _ _ hout with ⟨w', hw', _, _⟩ | hsp
            · have hhd : ((c :: cs).dropWhile fun x => !isPySpaceC x).head? = some a := by
                show (dropRun (c :: cs)).head? = some a
                rw [hw']; rfl
              have hfa := head_dropWhile_false (fun x => !isPySpaceC x) (c :: cs) a hhd
              simpa using hfa
            · exact hsp
          rcases Al_destruct hIH with ⟨w', hAl, hcase⟩
          have hsuf : w' <:+ (c :: cs) := by
            rcases hcase with heq | ⟨_, hsuf'⟩
            · exact ((List.suffix_cons a w').trans (heq ▸ hdsuf))
            · exact hsuf'.trans hdsuf
          exact Al.brk a Y (c :: cs) w' ha hsuf hAl
      · rw [dif_neg hb]
        exact Al.copy c _ _ (ih cs (by simpa [Nat.lt_succ_iff] using hz))

theorem pyMapBad_al : ∀ z : List Char, Al (pyMapBad z) z := by
  intro z
  induction z with
  | nil => exact Al.nil []
  | cons c cs ih =>
    show Al ((if isCleanKeep c then c else ' ') :: pyMapBad cs) (c :: cs)
    by_cases hk : isCleanKeep c = true
    · rw [if_pos hk]
      exact Al.copy c _ _ ih
    · rw [if_neg hk]
      exact Al.brk ' ' _ _ cs (by decide) (List.suffix_cons c cs) ih

theorem collapseRun_al (p : Char → Bool) (r : Char) (hr : isPySpaceC r = true) :
    ∀ z : List Char, Al (collapseRun p r z) z := by
  suffices H : ∀ n (z : List Char), z.length ≤ n → Al (collapseRun p r z) z from
    fun z => H z.length z le_rfl
  intro n
  induction n with
  | zero =>
    intro z hz
    rw [List.length_eq_zero.mp (Nat.le_zero.mp hz)]
    rw [show collapseRun p r [] = [] by simp [collapseRun]]
    exact Al.nil []
  | succ n ih =>
    intro z hz
    cases z with
    | nil =>
      rw [show collapseRun p r [] = [] by simp [collapseRun]]
      exact Al.nil []
    | cons c cs =>
      rw [collapseRun]
      by_cases hp : p c = true
      · rw [if_pos hp]
        refine Al.brk r _ _ (cs.dropWhile p) hr
          ((List.dropWhile_suffix p).trans (List.suffix_cons c cs)) (ih _ ?_)
        have := (List.dropWhile_sublist (l := cs) p).length_le
        simp only [List.length_cons] at hz
        omega
      · rw [if_neg hp]
        exact Al.copy c _ _ (ih cs (by simpa [Nat.lt_succ_iff] using hz))

theorem subHttp_sublist : ∀ l : List Char, List.Sublist (subHttp l) l := by
  suffices H : ∀ n (l : List Char), l.length ≤ n → List.Sublist (subHttp l) l from
    fun l => H l.length l le_rfl
  intro n
  induction n with
  | zero =>
    intro l hl
    rw [List.length_eq_zero.mp (Nat.le_zero.mp hl)]
    simp [subHttp]
  | succ n ih =>
    intro l hl
    cases l with
    | nil => simp [subHttp]
    | cons c cs =>
      rw [subHttp]
      by_cases hb : isHttpAt (c :: cs) = true
      · rw [if_pos hb]
        have hlen : (dropHttp (c :: cs)).length ≤ n := by
          have h4 : (dropHttp (c :: cs)).length ≤ (c :: cs).length - 4 := by
            simp only [dropHttp]
            exact le_trans (List.dropWhile_sublist _).length_le (by simp)
          simp only [List.length_cons] at hl h4
          omega
        refine (ih _ hlen).trans ?_
        simp only [dropHttp]
        exact ((List.dropWhile_sublist _).trans (List.drop_sublist _ _))
      · rw [if_neg hb]
        exact (ih cs (by simpa [Nat.lt_succ_iff] using hl)).cons₂ c

theorem subEmail_sublist : ∀ l : List Char, List.Sublist (subEmail l) l := by
  suffices H : ∀ n (l : List Char), l.length ≤ n → List.Sublist (subEmail l) l from
    fun l => H l.length l le_rfl
  intro n
  induction n with
  | zero =>
    intro l hl
    rw [List.length_eq_zero.mp (Nat.le_zero.mp hl)]
    simp [subEmail]
  | succ n ih =>
    intro l hl
    cases l with
    | nil => simp [subEmail]
    | cons c cs =>
      rw [subEmail]
      by_cases hb : isEmailAt (c :: cs) = true
      · rw [dif_pos hb]
        have hbns := isEmailAt_nonspace hb
        have hdr : dropRun (c :: cs) = cs.dropWhile fun x => !isPySpaceC x := by
          simp [dropRun, List.dropWhile_cons, hbns]
        have hlen : (dropRun (c :: cs)).length ≤ n := by
          rw [hdr]
          have := (List.dropWhile_sublist (l := cs) fun x => !isPySpaceC x).length_le
          simp only [List.length_cons] at hl
          omega
        refine (ih _ hlen).trans ?_
        exact (List.dropWhile_sublist _)
      · rw [dif_neg hb]
        exact (ih cs (by simpa [Nat.lt_succ_iff] using hl)).cons₂ c

theorem collapseRun_chars (p : Char → Bool) (r : Char) :
    ∀ l : List Char, ∀ c ∈ collapseRun p r l, c = r ∨ (c ∈ l ∧ p c = false) := by
  suffices H : ∀ n (l : List Char), l.length ≤ n →
      ∀ c ∈ collapseRun p r l, c = r ∨ (c ∈ l ∧ p c = false) from
    fun l => H l.length l le_rfl
  intro n
  induction n with
  | zero =>
    intro l hl
    rw [List.length_eq_zero.mp (Nat.le_zero.mp hl)]
    simp [collapseRun]
  | succ n ih =>
    intro l hl c hc
    cases l with
    | nil => simp [collapseRun] at hc
    | cons d ds =>
      rw [collapseRun] at hc
      by_cases hp : p d = true
      · rw [if_pos hp] at hc
        rcases List.mem_cons.mp hc with rfl | hc
        · exact Or.inl rfl
        · have hlen : (ds.dropWhile p).length ≤ n := by
            have := (List.dropWhile_sublist (l := ds) p).length_le
            simp only [List.length_cons] at hl
            omega
          rcases ih _ hlen c hc with h' | ⟨hmem, hpc⟩
          · exact Or.inl h'
          · exact Or.inr ⟨List.mem_cons_of_mem d ((List.dropWhile_sublist p).subset hmem), hpc⟩
      · rw [if_neg hp] at hc
        rcases List.mem_cons.mp hc with rfl | hc
        · exact Or.inr ⟨List.mem_cons_self _ _, by simpa using hp⟩
        · rcases ih ds (by simpa [Nat.lt_succ_iff] using hl) c hc with h' | ⟨hmem, hpc⟩
          · exact Or.inl h'
          · exact Or.inr ⟨List.mem_cons_of_mem d hmem, hpc⟩

theorem pyMapBad_chars (z : List Char) :
    ∀ c ∈ pyMapBad z, c = ' ' ∨ (c ∈ z ∧ isCleanKeep c = true) := by
  intro c hc
  rcases List.mem_map.mp hc with ⟨d, hd, rfl⟩
  by_cases hk : isCleanKeep d = true
  · rw [if_pos hk]
    exact Or.inr ⟨hd, hk⟩
  · rw [if_neg hk]
    exact Or.inl rfl

theorem NoAdj_tail (p : Char → Bool) (a : Char) (l : List Char)
    (h : NoAdj p (a :: l)) : NoAdj p l := by
  cases l with
  | nil => trivial
  | cons b t => exact ((NoAdj_cons_cons p a b t).mp h).2

theorem NoAdj_suffix {p : Char → Bool} {z z' : List Char} (h : NoAdj p z)
    (hsuf : z' <:+ z) : NoAdj p z' := by
  rcases hsuf with ⟨pre, rfl⟩
  induction pre with
  | nil => exact h
  | cons a pre ih => exact ih (NoAdj_tail p a _ (by simpa using h))

theorem collapseRun_head_not (p : Char → Bool) (r : Char) (v : List Char)
    (hv : ∀ a, v.head? = some a → p a = false) :
    ∀ a, (collapseRun p r v).head? = some a → p a = false := by
  intro a ha
  cases v with
  | nil => rw [show collapseRun p r [] = [] by simp [collapseRun]] at ha; simp at ha
  | cons d ds =>
    rw [collapseRun] at ha
    have hd := hv d rfl
    rw [if_neg (by simp [hd])] at ha
    simp at ha
    rw [← ha]
    exact hd

theorem collapseRun_head_or (p : Char → Bool) (r : Char) (v : List Char) :
    ∀ a, (collapseRun p r v).head? = some a → a = r ∨ v.head? = some a := by
  intro a ha
  cases v with
  | nil => rw [show collapseRun p r [] = [] by simp [collapseRun]] at ha; simp at ha
  | cons d ds =>
    rw [collapseRun] at ha
    by_cases hp : p d = true
    · rw [if_pos hp] at ha
      simp at ha
      exact Or.inl ha.symm
    · rw [if_neg hp] at ha
      simp at ha
      exact Or.inr (by simp [ha])

theorem collapseRun_noAdj (p : Char → Bool) (r : Char) :
    ∀ l : List Char, NoAdj p (collapseRun p r l) := by
  suffices H : ∀ n (l : List Char), l.length ≤ n → NoAdj p (collapseRun p r l) from
    fun l => H l.length l le_rfl
  intro n
  induction n with
  | zero =>
    intro l hl
    rw [List.length_eq_zero.mp (Nat.le_zero.mp hl)]
    rw [show collapseRun p r [] = [] by simp [collapseRun]]
    trivial
  | succ n ih =>
    intro l hl
    cases l with
    | nil =>
      rw [show collapseRun p r [] = [] by simp [collapseRun]]
      trivial
    | cons c cs =>
      rw [collapseRun]
      by_cases hp : p c = true
      · rw [if_pos hp]
        have hlen : (cs.dropWhile p).length ≤ n := by
          have := (List.dropWhile_sublist (l := cs) p).length_le
          simp only [List.length_cons] at hl
          omega
        rcases hout : collapseRun p r (cs.dropWhile p) with _ | ⟨b, tl⟩
        · trivial
        · rw [NoAdj_cons_cons]
          have hb : p b = false := by
            refine collapseRun_head_not p r _ ?_ b (by rw [hout]; rfl)
            exact fun a ha => head_dropWhile_false p cs a ha
          exact ⟨by simp [hb], hout ▸ ih _ hlen⟩
      · rw [if_neg hp]
        rw [NoAdj_cons_not p c _ (by simpa using hp)]
        exact ih cs (by simpa [Nat.lt_succ_iff] using hl)

theorem collapseRun_pres_noAdj (p : Char → Bool) (r : Char) (q : Char → Bool)
    (hqr : q r = false) :
    ∀ l : List Char, NoAdj q l → NoAdj q (collapseRun p r l) := by
  suffices H : ∀ n (l : List Char), l.length ≤ n → NoAdj q l →
      NoAdj q (collapseRun p r l) from fun l => H l.length l le_rfl
  intro n
  induction n with
  | zero =>
    intro l hl _
    rw [List.length_eq_zero.mp (Nat.le_zero.mp hl)]
    rw [show collapseRun p r [] = [] by simp [collapseRun]]
    trivial
  | succ n ih =>
    intro l hl hq
    cases l with
    | nil =>
      rw [show collapseRun p r [] = [] by simp [collapseRun]]
      trivial
    | cons c cs =>
      rw [collapseRun]
      by_cases hp : p c = true
      · rw [if_pos hp]
        have hlen : (cs.dropWhile p).length ≤ n := by
          have := (List.dropWhile_sublist (l := cs) p).length_le
          simp only [List.length_cons] at hl
          omega
        have htail : NoAdj q (collapseRun p r (cs.dropWhile p)) :=
          ih _ hlen (NoAdj_suffix (NoAdj_tail q c cs hq) (List.dropWhile_suffix p))
        rcases hout : collapseRun p r (cs.dropWhile p) with _ | ⟨b, tl⟩
        · trivial
        · rw [NoAdj_cons_cons]
          exact ⟨by simp [hqr], hout ▸ htail⟩
      · rw [if_neg hp]
        have htail : NoAdj q (collapseRun p r cs) :=
          ih cs (by simpa [Nat.lt_succ_iff] using hl) (NoAdj_tail q c cs hq)
        rcases hout : collapseRun p r cs with _ | ⟨b, tl⟩
        · trivial
        · rw [NoAdj_cons_cons]
          refine ⟨?_, hout ▸ htail⟩
          rcases collapseRun_head_or p r cs b (by rw [hout]; rfl) with rfl | hhd
          · simp [hqr]
          · rcases cs with _ | ⟨d, cs'⟩
            · simp at hhd
            · simp at hhd
              subst hhd
              exact ((NoAdj_cons_cons q c d cs').mp hq).1

theorem w_good (s : List Char) :
    Wgood (collapseNl (collapseBlank (pyMapBad (subEmail (subHttp (pyAscii s)))))) := by
  refine ⟨?_, ?_, ?_, ?_⟩
  · intro c hc
    rcases collapseRun_chars _ _ _ c hc with rfl | ⟨hc2, _⟩
    · exact ⟨by decide, by decide, by decide⟩
    · rcases collapseRun_chars _ _ _ c hc2 with rfl | ⟨hc3, hbl⟩
      · exact ⟨by decide, by decide, by decide⟩
      · rcases pyMapBad_chars _ c hc3 with rfl | ⟨hc4, hkeep⟩
        · exact ⟨by decide, by decide, by decide⟩
        · have hascii : isAsciiC c = true := by
            have hmem : c ∈ pyAscii s :=
              (subHttp_sublist _).subset ((subEmail_sublist _).subset hc4)
            exact (List.mem_filter.mp hmem).2
          have htab : c ≠ '\t' := by
            rintro rfl
            exact absurd hbl (by decide)
          exact ⟨hkeep, hascii, htab⟩
  · exact Al_noHttp (collapseRun_al _ _ (by decide) _)
      (Al_noHttp (collapseRun_al _ _ (by decide) _)
        (Al_noHttp (pyMapBad_al _)
          (Al_noHttp (subEmail_al _) (noHttp_subHttp _))))
  · exact collapseRun_pres_noAdj _ _ isBlankC (by decide) _ (collapseRun_noAdj _ _ _)
  · exact collapseRun_noAdj _ _ _

theorem startsWithL_drop :
    ∀ (p l : List Char), startsWithL p l = true → l = p ++ l.drop p.length := by
  intro p
  induction p with
  | nil => intro l _; simp
  | cons a ps ih =>
    intro l h
    cases l with
    | nil => simp [startsWithL] at h
    | cons c cs =>
      rw [startsWithL, Bool.and_eq_true] at h
      have h1 : a = c := by simpa using h.1
      subst h1
      simpa using ih cs h.2

theorem G_u2 (z : List Char) :
    replaceAllL tokenU tokenR (tokenU2 ++ z) = tokenU2 ++ replaceAllL tokenU tokenR z := by
  simp only [tokenU2, List.cons_append, List.nil_append]
  rw [replaceAllL_cons_neg _ _ _ _ (by simp [tokenU, startsWithL]),
    replaceAllL_cons_neg _ _ _ _ (by simp [tokenU, startsWithL]),
    replaceAllL_cons_neg _ _ _ _ (by simp [tokenU, startsWithL]),
    replaceAllL_cons_neg _ _ _ _ (by simp [tokenU, startsWithL]),
    replaceAllL_cons_neg _ _ _ _ (by simp [tokenU, startsWithL]),
    replaceAllL_cons_neg _ _ _ _ (by simp [tokenU, startsWithL]),
    replaceAllL_cons_neg _ _ _ _ (by simp [tokenU, startsWithL]),
    replaceAllL_cons_neg _ _ _ _ (by simp [tokenU, startsWithL]),
    replaceAllL_cons_neg _ _ _ _ (by simp [tokenU, startsWithL])]

theorem G_head_ne_x (z Y : List Char) (γ : Char)
    (h : replaceAllL tokenU tokenR z = γ :: Y) (hγ : γ ≠ 'x') :
    ∃ z', z = γ :: z' ∧ Y = replaceAllL tokenU tokenR z' := by
  cases z with
  | nil => simp [replaceAllL] at h
  | cons d ds =>
    rw [replaceAllL] at h
    by_cases hc : (tokenU ≠ [] ∧ startsWithL tokenU (d :: ds) = true)
    · rw [if_pos hc] at h
      simp [tokenR] at h
      exact absurd h.1.symm hγ
    · rw [if_neg hc] at h
      cases h
      exact ⟨ds, rfl, rfl⟩

theorem G_pullback (pp : List Char) (hx : 'x' ∉ pp) :
    ∀ z, startsWithL pp (replaceAllL tokenU tokenR z) = true →
      startsWithL pp z = true := by
  induction pp with
  | nil => intro z _; rfl
  | cons a ps ih =>
    intro z h
    rcases hG : replaceAllL tokenU tokenR z with _ | ⟨γ, Y⟩
    · rw [hG] at h
      simp [startsWithL] at h
    · rw [hG] at h
      rw [startsWithL, Bool.and_eq_true] at h
      have ha : a = γ := by simpa using h.1
      subst ha
      have hne : a ≠ 'x' := fun hc => hx (hc ▸ List.mem_cons_self a ps)
      rcases G_head_ne_x z Y a hG hne with ⟨z', rfl, rfl⟩
      rw [startsWithL, Bool.and_eq_true]
      exact ⟨by simp, ih (fun hm => hx (List.mem_cons_of_mem a hm)) z' h.2⟩

theorem HG_eq :
    ∀ w, replaceAllL tokenU2 tokenR (replaceAllL tokenU tokenR w) = subTokens w := by
  suffices H : ∀ n w, w.length ≤ n →
      replaceAllL tokenU2 tokenR (replaceAllL tokenU tokenR w) = subTokens w from
    fun w => H w.length w le_rfl
  intro n
  induction n with
  | zero =>
    intro w hw
    rw [List.length_eq_zero.mp (Nat.le_zero.mp hw)]
    simp [replaceAllL, subTokens]
  | succ n ih =>
    intro w hw
    cases w with
    | nil => simp [replaceAllL, subTokens]
    | cons c cs =>
      by_cases h1 : startsWithL tokenU (c :: cs) = true
      · have hsplit := startsWithL_drop tokenU (c :: cs) h1
        have hd : (c :: cs).drop tokenU.length = cs.drop 6 := rfl
        rw [hd] at hsplit
        rw [subTokens, if_pos h1]
        conv_lhs => rw [hsplit]
        rw [replaceAllL_append_self tokenU tokenR (by simp [tokenU]) (cs.drop 6),
          replaceU2_token]
        have hlen : (cs.drop 6).length ≤ n := by
          have h1 : (cs.drop 6).length ≤ cs.length := by simp
          have h2 : cs.length ≤ n := Nat.le_of_succ_le_succ (by simpa using hw)
          exact le_trans h1 h2
        rw [ih (cs.drop 6) hlen]
      · by_cases h2 : startsWithL tokenU2 (c :: cs) = true
        · have hsplit := startsWithL_drop tokenU2 (c :: cs) h2
          have hd : (c :: cs).drop tokenU2.length = cs.drop 8 := rfl
          rw [hd] at hsplit
          rw [subTokens, if_neg (by simp [h1]), if_pos h2]
          conv_lhs => rw [hsplit]
          rw [G_u2, replaceAllL_append_self tokenU2 tokenR (by simp [tokenU2]) _]
          have hlen : (cs.drop 8).length ≤ n := by
            have ha : (cs.drop 8).length ≤ cs.length := by simp
            have hb : cs.length ≤ n := Nat.le_of_succ_le_succ (by simpa using hw)
            exact le_trans ha hb
          rw [ih (cs.drop 8) hlen]
        · have h1f : startsWithL tokenU (c :: cs) = false := by
            simpa using h1
          have h2f : startsWithL tokenU2 (c :: cs) = false := by
            simpa using h2
          rw [subTokens, if_neg (by simp [h1f]), if_neg (by simp [h2f])]
          rw [replaceAllL_cons_neg _ _ _ _ h1f]
          have hno : startsWithL tokenU2 (c :: replaceAllL tokenU tokenR cs) = false := by
            by_contra hcon
            rw [Bool.not_eq_false] at hcon
            rw [show tokenU2 = 'x' :: ['1', '0', ' ', '3', ' ', '/', ' ', 'L'] from rfl,
              startsWithL, Bool.and_eq_true] at hcon
            have hcx : c = 'x' := by
              have := hcon.1
              simp only [decide_eq_true_eq] at this
              exact this.symm
            have hps := G_pullback ['1', '0', ' ', '3', ' ', '/', ' ', 'L']
              (by decide) cs hcon.2
            have : startsWithL tokenU2 (c :: cs) = true := by
              rw [show tokenU2 = 'x' :: ['1', '0', ' ', '3', ' ', '/', ' ', 'L'] from rfl,
                startsWithL, Bool.and_eq_true]
              exact ⟨by simp [hcx], hps⟩
            rw [this] at h2f
            exact absurd h2f (by simp)
          rw [replaceAllL_cons_neg _ _ _ _ hno]
          have hlen : cs.length ≤ n := Nat.le_of_succ_le_succ (by simpa using hw)
          rw [ih cs hlen]

theorem st_head_ne_x (z Y : List Char) (γ : Char)
    (h : subTokens z = γ :: Y) (hγ : γ ≠ 'x') :
    ∃ z', z = γ :: z' ∧ Y = subTokens z' := by
  cases z with
  | nil => simp [subTokens] at h
  | cons d ds =>
    rw [subTokens] at h
    by_cases hc1 : startsWithL tokenU (d :: ds) = true
    · rw [if_pos hc1] at h
      simp [tokenR] at h
      exact absurd h.1.symm hγ
    · rw [if_neg hc1] at h
      by_cases hc2 : startsWithL tokenU2 (d :: ds) = true
      · rw [if_pos hc2] at h
        simp [tokenR] at h
        exact absurd h.1.symm hγ
      · rw [if_neg hc2] at h
        cases h
        exact ⟨ds, rfl, rfl⟩

theorem nt_head_ne_x (z Y : List Char) (γ : Char)
    (h : normTokens z = γ :: Y) (hγ : γ ≠ 'x') :
    ∃ z', z = γ :: z' ∧ Y = normTokens z' := by
  cases z with
  | nil => simp [normTokens] at h
  | cons d ds =>
    rw [normTokens] at h
    by_cases hc1 : startsWithL tokenU (d :: ds) = true
    · rw [if_pos hc1] at h
      simp [tokenU] at h
      exact absurd h.1.symm hγ
    · rw [if_neg hc1] at h
      by_cases hc2 : startsWithL tokenU2 (d :: ds) = true
      · rw [if_pos hc2] at h
        simp [tokenU] at h
        exact absurd h.1.symm hγ
      · rw [if_neg hc2] at h
        cases h
        exact ⟨ds, rfl, rfl⟩

theorem hat_head_ne_x (z Y : List Char) (γ : Char)
    (h : hatTokens z = γ :: Y) (hγ : γ ≠ 'x') :
    ∃ z', z = γ :: z' ∧ Y = hatTokens z' := by
  cases z with
  | nil => simp [hatTokens] at h
  | cons d ds =>
    rw [hatTokens] at h
    by_cases hc1 : startsWithL tokenU (d :: ds) = true
    · rw [if_pos hc1] at h
      simp at h
      exact absurd h.1.symm hγ
    · rw [if_neg hc1] at h
      by_cases hc2 : startsWithL tokenU2 (d :: ds) = true
      · rw [if_pos hc2] at h
        simp at h
        exact absurd h.1.symm hγ
      · rw [if_neg hc2] at h
        cases h
        exact ⟨ds, rfl, rfl⟩

theorem st_pullback (pp : List Char) (hx : 'x' ∉ pp) :
    ∀ z, startsWithL pp (subTokens z) = true → startsWithL pp z = true := by
  induction pp with
  | nil => intro z _; rfl
  | cons a ps ih =>
    intro z h
    rcases hG : subTokens z with _ | ⟨γ, Y⟩
    · rw [hG] at h
      simp [startsWithL] at h
    · rw [hG] at h
      rw [startsWithL, Bool.and_eq_true] at h
      have ha : a = γ := by simpa using h.1
      subst ha
      have hne : a ≠ 'x' := fun hc => hx (hc ▸ List.mem_cons_self a ps)
      rcases st_head_ne_x z Y a hG hne with ⟨z', rfl, rfl⟩
      rw [startsWithL, Bool.and_eq_true]
      exact ⟨by simp, ih (fun hm => hx (List.mem_cons_of_mem a hm)) z' h.2⟩

theorem nt_pullback (pp : List Char) (hx : 'x' ∉ pp) :
    ∀ z, startsWithL pp (normTokens z) = true → startsWithL pp z = true := by
  induction pp with
  | nil => intro z _; rfl
  | cons a ps ih =>
    intro z h
    rcases hG : normTokens z with _ | ⟨γ, Y⟩
    · rw [hG] at h
      simp [startsWithL] at h
    · rw [hG] at h
      rw [startsWithL, Bool.and_eq_true] at h
      have ha : a = γ := by simpa using h.1
      subst ha
      have hne : a ≠ 'x' := fun hc => hx (hc ▸ List.mem_cons_self a ps)
      rcases nt_head_ne_x z Y a hG hne with ⟨z', rfl, rfl⟩
      rw [startsWithL, Bool.and_eq_true]
      exact ⟨by simp, ih (fun hm => hx (List.mem_cons_of_mem a hm)) z' h.2⟩

theorem hat_prefix_pull (pp : List Char) (hx : 'x' ∉ pp) :
    ∀ z Y, hatTokens z = pp ++ Y → ∃ z', z = pp ++ z' ∧ Y = hatTokens z' := by
  induction pp with
  | nil => intro z Y h; exact ⟨z, rfl, by simpa using h.symm⟩
  | cons a ps ih =>
    intro z Y h
    have hne : a ≠ 'x' := fun hc => hx (hc ▸ List.mem_cons_self a ps)
    rcases hat_head_ne_x z (ps ++ Y) a (by simpa using h) hne with ⟨z', rfl, hY⟩
    rcases ih (fun hm => hx (List.mem_cons_of_mem a hm)) z' Y hY.symm with ⟨z'', rfl, hY2⟩
    exact ⟨z'', rfl, hY2⟩

theorem nt_head (z : List Char) : (normTokens z).head? = z.head? := by
  cases z with
  | nil => simp [normTokens]
  | cons c cs =>
    rw [normTokens]
    by_cases h1 : startsWithL tokenU (c :: cs) = true
    · rw [if_pos h1]
      have hc : c = 'x' := by
        rw [show tokenU = 'x' :: ['1', '0', ' ', '3', '/', 'L'] from rfl,
          startsWithL, Bool.and_eq_true] at h1
        have := h1.1
        simp only [decide_eq_true_eq] at this
        exact this.symm
      simp [tokenU, hc]
    · rw [if_neg h1]
      by_cases h2 : startsWithL tokenU2 (c :: cs) = true
      · rw [if_pos h2]
        have hc : c = 'x' := by
          rw [show tokenU2 = 'x' :: ['1', '0', ' ', '3', ' ', '/', ' ', 'L'] from rfl,
            startsWithL, Bool.and_eq_true] at h2
          have := h2.1
          simp only [decide_eq_true_eq] at this
          exact this.symm
        simp [tokenU, hc]
      · rw [if_neg h2]
        simp

theorem eraseMu_subTokens :
    ∀ z, (∀ c ∈ z, c ≠ 'µ') → eraseMu (subTokens z) = hatTokens z := by
  suffices H : ∀ n z, z.length ≤ n → (∀ c ∈ z, c ≠ 'µ') →
      eraseMu (subTokens z) = hatTokens z from fun z => H z.length z le_rfl
  intro n
  induction n with
  | zero =>
    intro z hz _
    rw [List.length_eq_zero.mp (Nat.le_zero.mp hz)]
    simp [subTokens, hatTokens, eraseMu]
  | succ n ih =>
    intro z hz hmu
    cases z with
    | nil => simp [subTokens, hatTokens, eraseMu]
    | cons c cs =>
      have hlen : cs.length ≤ n := Nat.le_of_succ_le_succ (by simpa using hz)
      by_cases h1 : startsWithL tokenU (c :: cs) = true
      · rw [subTokens, if_pos h1, hatTokens, if_pos h1, eraseMu_tok]
        rw [ih (cs.drop 6) (le_trans (by simp) hlen)
          (fun d hd => hmu d (List.mem_cons_of_mem c (List.mem_of_mem_drop hd)))]
      · by_cases h2 : startsWithL tokenU2 (c :: cs) = true
        · rw [subTokens, if_neg h1, if_pos h2, hatTokens, if_neg h1, if_pos h2,
            eraseMu_tok]
          rw [ih (cs.drop 8) (le_trans (by simp) hlen)
            (fun d hd => hmu d (List.mem_cons_of_mem c (List.mem_of_mem_drop hd)))]
        · rw [subTokens, if_neg h1, if_neg h2, hatTokens, if_neg h1, if_neg h2,
            eraseMu_cons_ne c _ (hmu c (List.mem_cons_self c cs))]
          rw [ih cs hlen (fun d hd => hmu d (List.mem_cons_of_mem c hd))]

theorem mapCaret_hat :
    ∀ z, (∀ c ∈ z, c ≠ '^') → mapCaret (hatTokens z) = normTokens z := by
  suffices H : ∀ n z, z.length ≤ n → (∀ c ∈ z, c ≠ '^') →
      mapCaret (hatTokens z) = normTokens z from fun z => H z.length z le_rfl
  intro n
  induction n with
  | zero =>
    intro z hz _
    rw [List.length_eq_zero.mp (Nat.le_zero.mp hz)]
    simp [hatTokens, normTokens, mapCaret]
  | succ n ih =>
    intro z hz hcar
    cases z with
    | nil => simp [hatTokens, normTokens, mapCaret]
    | cons c cs =>
      have hlen : cs.length ≤ n := Nat.le_of_succ_le_succ (by simpa using hz)
      by_cases h1 : startsWithL tokenU (c :: cs) = true
      · rw [hatTokens, if_pos h1, normTokens, if_pos h1]
        rw [show mapCaret (['x', '1', '0', '^', '3', '/', 'L'] ++ hatTokens (cs.drop 6)) =
          tokenU ++ mapCaret (hatTokens (cs.drop 6)) from List.map_append ..]
        rw [ih (cs.drop 6) (le_trans (by simp) hlen)
          (fun d hd => hcar d (List.mem_cons_of_mem c (List.mem_of_mem_drop hd)))]
      · by_cases h2 : startsWithL tokenU2 (c :: cs) = true
        · rw [hatTokens, if_neg h1, if_pos h2, normTokens, if_neg h1, if_pos h2]
          rw [show mapCaret (['x', '1', '0', '^', '3', '/', 'L'] ++ hatTokens (cs.drop 8)) =
            tokenU ++ mapCaret (hatTokens (cs.drop 8)) from List.map_append ..]
          rw [ih (cs.drop 8) (le_trans (by simp) hlen)
            (fun d hd => hcar d (List.mem_cons_of_mem c (List.mem_of_mem_drop hd)))]
        · rw [hatTokens, if_neg h1, if_neg h2, normTokens, if_neg h1, if_neg h2,
            mapCaret_cons_ne c _ (hcar c (List.mem_cons_self c cs))]
          rw [ih cs hlen (fun d hd => hcar d (List.mem_cons_of_mem c hd))]

theorem decode_subTokens (z : List Char) (h : ∀ c ∈ z, goodChar c) :
    mapCaret (eraseMu (subTokens z)) = normTokens z := by
  rw [eraseMu_subTokens z (fun c hc => goodChar_ne_mu c (h c hc)),
    mapCaret_hat z (fun c hc => goodChar_ne_caret c (h c hc))]

theorem Wgood_suffix {z z' : List Char} (h : Wgood z) (hsuf : z' <:+ z) : Wgood z' := by
  obtain ⟨hc, hh, hb, hn⟩ := h
  exact ⟨fun c hc' => hc c (hsuf.sublist.mem hc'), NoHttp_suffix hh hsuf,
    NoAdj_suffix hb hsuf, NoAdj_suffix hn hsuf⟩

theorem hat_http (c : Char) (z : List Char) (h : isHttpAt (c :: z) = false) :
    isHttpAt (c :: hatTokens z) = false := by
  by_cases hc : c = 'h'
  · subst hc
    by_contra hcon
    rw [Bool.not_eq_false, isHttpAt, Bool.and_eq_true] at hcon
    obtain ⟨hsw, hmatch⟩ := hcon
    rw [show (['h', 't', 't', 'p'] : List Char) = 'h' :: ['t', 't', 'p'] from rfl,
      startsWithL, Bool.and_eq_true] at hsw
    have hsplit := startsWithL_drop ['t', 't', 'p'] (hatTokens z) hsw.2
    rcases hat_prefix_pull ['t', 't', 'p'] (by decide) z _ hsplit with ⟨z3, hz, hY⟩
    have hdrop : ('h' :: hatTokens z).drop 4 = hatTokens z3 := by
      rw [List.drop_succ_cons, hsplit, ← hY]
      rfl
    rw [hdrop] at hmatch
    cases hz3 : z3 with
    | nil =>
      rw [hz3] at hmatch
      simp [hatTokens] at hmatch
    | cons e rest =>
      rw [hz3] at hz
      rw [hz] at h
      rw [isHttpAt] at h
      simp only [startsWithL, List.cons_append, List.nil_append] at h
      simp only [List.drop_succ_cons, List.drop_nil, List.drop] at h
      simp at h
      have hex : e ≠ 'x' := by
        intro he
        rw [he] at h
        exact absurd h (by decide)
      have hsw1 : startsWithL tokenU (e :: rest) = false := by
        rw [show tokenU = 'x' :: ['1', '0', ' ', '3', '/', 'L'] from rfl, startsWithL]
        simp
        intro hq
        exact absurd hq.symm hex
      have hsw2 : startsWithL tokenU2 (e :: rest) = false := by
        rw [show tokenU2 = 'x' :: ['1', '0', ' ', '3', ' ', '/', ' ', 'L'] from rfl,
          startsWithL]
        simp
        intro hq
        exact absurd hq.symm hex
      rw [hz3, hatTokens, if_neg (by simp [hsw1]), if_neg (by simp [hsw2])] at hmatch
      simp at hmatch
      rw [h] at hmatch
      exact absurd hmatch (by decide)
  · exact isHttpAt_false_of_ne c _ hc

theorem shape_subTokens : ∀ w, Wgood w → Shape (subTokens w) := by
  suffices H : ∀ n w, w.length ≤ n → Wgood w → Shape (subTokens w) from
    fun w => H w.length w le_rfl
  intro n
  induction n with
  | zero =>
    intro w hw _
    rw [List.length_eq_zero.mp (Nat.le_zero.mp hw)]
    rw [show subTokens [] = [] from by simp [subTokens]]
    exact Shape.nil
  | succ n ih =>
    intro w hw hg
    cases w with
    | nil =>
      rw [show subTokens [] = [] from by simp [subTokens]]
      exact Shape.nil
    | cons c cs =>
      have hlen : cs.length ≤ n := Nat.le_of_succ_le_succ (by simpa using hw)
      by_cases h1 : startsWithL tokenU (c :: cs) = true
      · rw [subTokens, if_pos h1]
        exact Shape.tok _ (ih (cs.drop 6) (le_trans (by simp) hlen)
          (Wgood_suffix hg ((List.drop_suffix 6 cs).trans (List.suffix_cons c cs))))
      · by_cases h2 : startsWithL tokenU2 (c :: cs) = true
        · rw [subTokens, if_neg h1, if_pos h2]
          exact Shape.tok _ (ih (cs.drop 8) (le_trans (by simp) hlen)
            (Wgood_suffix hg ((List.drop_suffix 8 cs).trans (List.suffix_cons c cs))))
        · rw [subTokens, if_neg h1, if_neg h2]
          obtain ⟨hchars, hhttp, hbb, hnn⟩ := hg
          have hgood : ∀ d ∈ cs, goodChar d :=
            fun d hd => hchars d (List.mem_cons_of_mem c hd)
          have hcg : goodChar c := hchars c (List.mem_cons_self c cs)
          have hera : eraseMu (subTokens cs) = hatTokens cs :=
            eraseMu_subTokens cs (fun d hd => goodChar_ne_mu d (hgood d hd))
          have hdec : mapCaret (eraseMu (subTokens cs)) = normTokens cs :=
            decode_subTokens cs hgood
          refine Shape.chr c _ ⟨hcg, ?_, ?_, ?_, ?_, ?_⟩
            (ih cs hlen (Wgood_suffix ⟨hchars, hhttp, hbb, hnn⟩ (List.suffix_cons c cs)))
          · rw [hera]
            exact hat_http c cs hhttp.1
          · intro hc hcon
            rw [dhead, hdec, nt_head] at hcon
            cases cs with
            | nil => simp at hcon
            | cons e rest =>
              have he : e = ' ' := by simpa using hcon
              rw [he] at hbb
              exact ((NoAdj_cons_cons isBlankC c ' ' rest).mp hbb).1
                ⟨by simp [isBlankC, hc], by simp [isBlankC]⟩
          · intro hc hcon
            rw [dhead, hdec, nt_head] at hcon
            cases cs with
            | nil => simp at hcon
            | cons e rest =>
              have he : e = '\n' := by simpa using hcon
              rw [he] at hnn
              exact ((NoAdj_cons_cons _ c '\n' rest).mp hnn).1
                ⟨by simp [hc], by simp⟩
          · rw [hdec]
            by_contra hcon
            rw [Bool.not_eq_false] at hcon
            rw [show tokenU = 'x' :: ['1', '0', ' ', '3', '/', 'L'] from rfl,
              startsWithL, Bool.and_eq_true] at hcon
            have hps := nt_pullback ['1', '0', ' ', '3', '/', 'L'] (by decide) cs hcon.2
            exact h1 (by
              rw [show tokenU = 'x' :: ['1', '0', ' ', '3', '/', 'L'] from rfl,
                startsWithL, Bool.and_eq_true]
              exact ⟨hcon.1, hps⟩)
          · by_contra hcon
            rw [Bool.not_eq_false] at hcon
            rw [show tokenU2 = 'x' :: ['1', '0', ' ', '3', ' ', '/', ' ', 'L'] from rfl,
              startsWithL, Bool.and_eq_true] at hcon
            have hps := st_pullback ['1', '0', ' ', '3', ' ', '/', ' ', 'L']
              (by decide) cs hcon.2
            exact h2 (by
              rw [show tokenU2 = 'x' :: ['1', '0', ' ', '3', ' ', '/', ' ', 'L'] from rfl,
                startsWithL, Bool.and_eq_true]
              exact ⟨hcon.1, hps⟩)

theorem startsWithL_mono (p : List Char) :
    ∀ l v, startsWithL p l = true → startsWithL p (l ++ v) = true := by
  induction p with
  | nil => intro l v _; rfl
  | cons a ps ih =>
    intro l v h
    cases l with
    | nil => simp [startsWithL] at h
    | cons c cs =>
      rw [startsWithL, Bool.and_eq_true] at h
      rw [List.cons_append, startsWithL, Bool.and_eq_true]
      exact ⟨h.1, ih cs v h.2⟩

theorem isHttpAt_mono (l v : List Char) (h : isHttpAt l = true) :
    isHttpAt (l ++ v) = true := by
  rw [isHttpAt, Bool.and_eq_true] at h
  rw [isHttpAt, Bool.and_eq_true]
  refine ⟨startsWithL_mono _ l v h.1, ?_⟩
  have h2 := h.2
  rcases hd : l.drop 4 with _ | ⟨d, rest⟩
  · rw [hd] at h2
    simp at h2
  · rw [hd] at h2
    have hlen : 4 ≤ l.length := by
      by_contra hcon
      rw [List.drop_eq_nil_of_le (le_of_not_le hcon)] at hd
      exact List.noConfusion hd
    rw [List.drop_append_of_le_length hlen, hd]
    simpa using h2

theorem eraseMu_append (u v : List Char) :
    eraseMu (u ++ v) = eraseMu u ++ eraseMu v := List.filter_append ..

theorem mapCaret_append (u v : List Char) :
    mapCaret (u ++ v) = mapCaret u ++ mapCaret v := List.map_append ..

theorem dhead_mono (u v : List Char) (a : Char) (h : dhead u = some a) :
    dhead (u ++ v) = some a := by
  rw [dhead] at h ⊢
  rw [eraseMu_append, mapCaret_append]
  cases hm : mapCaret (eraseMu u) with
  | nil =>
    rw [hm] at h
    simp at h
  | cons b bs =>
    rw [hm] at h
    simp at h
    simp [h]

theorem NodeOk_prefix {c : Char} {u v : List Char} (h : NodeOk c (u ++ v)) :
    NodeOk c u := by
  obtain ⟨h1, h2, h3, h4, h5, h6⟩ := h
  refine ⟨h1, ?_, ?_, ?_, ?_, ?_⟩
  · by_contra hcon
    rw [Bool.not_eq_false] at hcon
    have := isHttpAt_mono (c :: eraseMu u) (eraseMu v) hcon
    rw [List.cons_append, ← eraseMu_append] at this
    rw [this] at h2
    exact absurd h2 (by simp)
  · intro hc hcon
    cases hh : dhead u with
    | none => rw [hh] at hcon; exact Option.noConfusion hcon
    | some a =>
      rw [hh] at hcon
      cases hcon
      exact h3 hc (dhead_mono u v ' ' hh)
  · intro hc hcon
    cases hh : dhead u with
    | none => rw [hh] at hcon; exact Option.noConfusion hcon
    | some a =>
      rw [hh] at hcon
      cases hcon
      exact h4 hc (dhead_mono u v '\n' hh)
  · by_contra hcon
    rw [Bool.not_eq_false] at hcon
    have := startsWithL_mono tokenU (c :: mapCaret (eraseMu u))
      (mapCaret (eraseMu v)) hcon
    rw [List.cons_append, ← mapCaret_append, ← eraseMu_append] at this
    rw [this] at h5
    exact absurd h5 (by simp)
  · by_contra hcon
    rw [Bool.not_eq_false] at hcon
    have := startsWithL_mono tokenU2 (c :: u) v hcon
    rw [List.cons_append] at this
    rw [this] at h6
    exact absurd h6 (by simp)

theorem dropWhile_append_split (p : Char → Bool) (l₁ l₂ : List Char) :
    (l₁ ++ l₂).dropWhile p =
      if l₁.dropWhile p = [] then l₂.dropWhile p else l₁.dropWhile p ++ l₂ := by
  induction l₁ with
  | nil => simp
  | cons a t ih =>
    simp only [List.cons_append, List.dropWhile_cons]
    by_cases hp : p a = true
    · simp [hp, ih]
    · simp [hp]

theorem rdropWhile_append_split (p : Char → Bool) (l₁ l₂ : List Char) :
    List.rdropWhile p (l₁ ++ l₂) =
      if List.rdropWhile p l₂ = [] then List.rdropWhile p l₁
      else l₁ ++ List.rdropWhile p l₂ := by
  rw [show List.rdropWhile p (l₁ ++ l₂) =
    (((l₁ ++ l₂).reverse.dropWhile p)).reverse from rfl]
  rw [List.reverse_append, dropWhile_append_split]
  by_cases h2 : l₂.reverse.dropWhile p = []
  · rw [if_pos h2, if_pos (by rw [show List.rdropWhile p l₂ =
      (l₂.reverse.dropWhile p).reverse from rfl, h2]; rfl)]
    rfl
  · rw [if_neg h2, if_neg (by
      rw [show List.rdropWhile p l₂ = (l₂.reverse.dropWhile p).reverse from rfl]
      simpa [List.reverse_eq_nil_iff] using h2)]
    rw [List.reverse_append, List.reverse_reverse]
    rfl

theorem Shape_dropWhile {t : List Char} (h : Shape t) :
    Shape (t.dropWhile isPySpaceC) := by
  induction h with
  | nil =>
    rw [List.dropWhile_nil]
    exact Shape.nil
  | tok r hr ih =>
    rw [show tokenR ++ r = 'x' :: (['1', '0', '^', '3', '/', 'µ', 'L'] ++ r) from rfl,
      List.dropWhile_cons, if_neg (by decide)]
    exact Shape.tok r hr
  | chr c r hok hr ih =>
    rw [List.dropWhile_cons]
    by_cases hp : isPySpaceC c = true
    · rw [if_pos hp]
      exact ih
    · rw [if_neg hp]
      exact Shape.chr c r hok hr

theorem rdrop_tokenR : List.rdropWhile isPySpaceC tokenR = tokenR := by decide

theorem Shape_rdrop {t : List Char} (h : Shape t) :
    Shape (List.rdropWhile isPySpaceC t) := by
  induction h with
  | nil =>
    rw [List.rdropWhile_nil]
    exact Shape.nil
  | tok r hr ih =>
    rw [rdropWhile_append_split]
    by_cases hre : List.rdropWhile isPySpaceC r = []
    · rw [if_pos hre, rdrop_tokenR]
      have := Shape.tok [] Shape.nil
      simpa using this
    · rw [if_neg hre]
      exact Shape.tok _ ih
  | chr c r hok hr ih =>
    rw [show c :: r = [c] ++ r from rfl, rdropWhile_append_split]
    by_cases hre : List.rdropWhile isPySpaceC r = []
    · rw [if_pos hre]
      by_cases hp : isPySpaceC c = true
      · rw [show List.rdropWhile isPySpaceC [c] = [] from by
          rw [show List.rdropWhile isPySpaceC [c] =
            (List.dropWhile isPySpaceC [c]).reverse from rfl]
          rw [List.dropWhile_cons, if_pos hp]
          rfl]
        exact Shape.nil
      · rw [show List.rdropWhile isPySpaceC [c] = [c] from by
          rw [show List.rdropWhile isPySpaceC [c] =
            (List.dropWhile isPySpaceC [c]).reverse from rfl]
          rw [List.dropWhile_cons, if_neg hp]
          rfl]
        refine Shape.chr c [] ?_ Shape.nil
        have := NodeOk_prefix (u := []) (v := r) (by simpa using hok)
        exact this
    · rw [if_neg hre, List.singleton_append]
      rcases List.rdropWhile_prefix isPySpaceC r with ⟨v, hv⟩
      refine Shape.chr c _ ?_ ih
      exact NodeOk_prefix (v := v) (by rw [hv]; exact hok)

theorem shape_pyStrip {t : List Char} (h : Shape t) : Shape (pyStripL t) := by
  rw [pyStripL_eq_rdrop]
  exact Shape_rdrop (Shape_dropWhile h)

theorem clean_text_shape {t : List Char} (h : Shape t) : clean_text t = pyStripL t := by
  rw [clean_text, chain_shape h]

/-- C1: `clean_text` is idempotent: applying it to its own output returns
that output unchanged, for every input string. -/
theorem claim1 (s : List Char) : clean_text (clean_text s) = clean_text s := by
  have hshape : Shape (clean_text s) := by
    rw [clean_text, HG_eq]
    exact shape_pyStrip (shape_subTokens _ (w_good s))
  rw [clean_text_shape hshape]
  conv_lhs => rw [clean_text]
  rw [pyStripL_idem]
  rfl

end Medicoreportz
